import Mathlib

/-!
# Detective Quest: clue ledger, suspect index, navigator and verdict

A shallow embedding of `detectiveQuestMestre.c` (the richer variant) and the
properties proved about it.

Conventions of the embedding
* A C string is the list of its bytes before the terminating NUL; every byte of
  a C string is therefore in `1 .. 255`, which is what `Byte` records.
* A pointer that may be `NULL` is an `Option`; a pointer to a tree node is the
  subtree rooted there, `nil` standing for `NULL`.
* `int` is 32 bits wide. C leaves signed overflow undefined; the compiled
  program wraps in two's complement, and so does the embedding: the result of
  an `int` addition is reduced by `int32`.
* `unsigned long` is 64 bits wide and wraps, written with an explicit `% 2^64`.
* Console output is not modelled; only the state it reports on is.
-/

namespace DetectiveQuest

/-! ## Constants -/

/-- Size of every name buffer: `#define MAX_NAME 64`. -/
def MAX_NAME : Nat := 64

/-- Number of buckets: `#define HASH_SIZE 53`. -/
def HASH_SIZE : Nat := 53

/-- Capacity of the undo stack: `#define STACK_MAX 128`. -/
def STACK_MAX : Nat := 128

/-! ## Machine integers -/

/-- The value an `int` holds after an arithmetic result `x`: `x` reduced to the
32-bit two's complement range, `2147483647 + 1` giving `-2147483648`. -/
def int32 (x : Int) : Int := (x + 2147483648) % 4294967296 - 2147483648

/-- The integer `x` is a value of type `int`: between `INT_MIN` and `INT_MAX`. -/
def EhInt (x : Int) : Prop := -2147483648 ≤ x ∧ x < 2147483648

instance (x : Int) : Decidable (EhInt x) := by
  unfold EhInt
  infer_instance

/-! ## C strings -/

/-- One byte of a C string: an `unsigned char` other than the terminator. -/
structure Byte where
  val : Nat
  pos : 0 < val
  lt : val < 256
deriving DecidableEq

/-- The bytes of a NUL-terminated string, terminator excluded. -/
abbrev CStr := List Byte

/-- Byte with the given code; codes outside `1 .. 255` become `?`. Only used to
write down concrete strings. -/
def Byte.ofNat (n : Nat) : Byte :=
  if h : 0 < n ∧ n < 256 then ⟨n, h.1, h.2⟩ else ⟨63, by decide, by decide⟩

/-- The C string with the given byte codes. -/
def cstr (codes : List Nat) : CStr := codes.map Byte.ofNat

/-- The function `strcmp`: the difference of the first pair of bytes that differ,
both read as `unsigned char`, the terminator counting as byte `0`. -/
def strcmp : CStr → CStr → Int
  | [], [] => 0
  | [], b :: _ => 0 - (b.val : Int)
  | a :: _, [] => (a.val : Int)
  | a :: as, b :: bs => if a.val = b.val then strcmp as bs else (a.val : Int) - (b.val : Int)

/-- The string left in `dst` by `strncpy(dst, src, n); dst[n] = 0`: the first
`n` bytes of `src`. -/
def strncpy (src : CStr) (n : Nat) : CStr := src.take n

/-! ## Clue tree (BST with duplicate counter) -/

/-- A `BSTNode *`: `nil` is `NULL`, `node pista contador esq dir` a node. -/
inductive BSTNode where
  | nil : BSTNode
  | node (pista : CStr) (contador : Int) (esq dir : BSTNode) : BSTNode
deriving DecidableEq

/-- The function `inserirPista`: no-op on a missing or empty text, a new node with
counter 1 at a `NULL` position, otherwise bump on equality and descend left or
right by the sign of `strcmp`. -/
def inserirPista (raiz : BSTNode) (pista : Option CStr) : BSTNode :=
  match pista with
  | none => raiz
  | some p =>
    if p = [] then raiz
    else
      match raiz with
      | .nil => .node (strncpy p (MAX_NAME - 1)) 1 .nil .nil
      | .node txt c esq dir =>
        let cmp := strcmp p txt
        if cmp = 0 then .node txt (int32 (c + 1)) esq dir
        else if cmp < 0 then .node txt c (inserirPista esq pista) dir
        else .node txt c esq (inserirPista dir pista)

/-- The function `buscarPistaNode`: the node holding the text, or `NULL`. -/
def buscarPistaNode (raiz : BSTNode) (pista : Option CStr) : BSTNode :=
  match raiz, pista with
  | .nil, _ => .nil
  | _, none => .nil
  | .node txt c esq dir, some p =>
    let cmp := strcmp p txt
    if cmp = 0 then .node txt c esq dir
    else if cmp < 0 then buscarPistaNode esq pista
    else buscarPistaNode dir pista

/-- In-order walk of the clue tree (left subtree, node, right subtree) as the
list of `(pista, contador)` records. -/
def BSTNode.emOrdem : BSTNode → List (CStr × Int)
  | .nil => []
  | .node txt c esq dir => esq.emOrdem ++ (txt, c) :: dir.emOrdem

/-- The tree obtained from `raiz` by one `inserirPista` call per text, in order. -/
def inserirTodas (raiz : BSTNode) (textos : List CStr) : BSTNode :=
  textos.foldl (fun r t => inserirPista r (some t)) raiz

/-! ## Suspect table (hash table with chaining) -/

/-- One `HashEntry`; the chain link `prox` is the tail of the list holding it. -/
structure HashEntry where
  pista : CStr
  suspeito : CStr
deriving DecidableEq

/-- The `HashTable`: `HASH_SIZE` chains, `[]` being a `NULL` bucket. -/
structure HashTable where
  buckets : Fin HASH_SIZE → List HashEntry

/-- The function `inicializarHash`: every bucket is `NULL`. -/
def inicializarHash : HashTable := ⟨fun _ => []⟩

/-- The function `hash_djb2` on 64-bit `unsigned long`: `hash = (hash << 5) + hash + c`
for every byte, from 5381, then `% HASH_SIZE`. -/
def hash_djb2 (str : CStr) : Fin HASH_SIZE :=
  ⟨(str.foldl (fun hash c => (((hash * 2 ^ 5) % 2 ^ 64 + hash) % 2 ^ 64 + c.val) % 2 ^ 64) 5381)
      % HASH_SIZE, Nat.mod_lt _ (by decide)⟩

/-- The scan loop of `inserirNaHash` over one chain: the chain with the value of
the first entry whose key equals `pista` overwritten, or `none` when the scan
reaches the end of the chain. -/
def sobrescrever (pista suspeito : CStr) : List HashEntry → Option (List HashEntry)
  | [] => none
  | cur :: prox =>
    if strcmp cur.pista pista = 0 then
      some ({ cur with suspeito := strncpy suspeito (MAX_NAME - 1) } :: prox)
    else (sobrescrever pista suspeito prox).map (fun resto => cur :: resto)

/-- The function `inserirNaHash`: overwrite in place when the key is in its chain,
otherwise push a new entry at the head of the chain. -/
def inserirNaHash (ht : HashTable) (pista suspeito : Option CStr) : HashTable :=
  match pista, suspeito with
  | some p, some s =>
    let key := hash_djb2 p
    match sobrescrever p s (ht.buckets key) with
    | some cadeia => ⟨Function.update ht.buckets key cadeia⟩
    | none =>
      ⟨Function.update ht.buckets key
        (⟨strncpy p (MAX_NAME - 1), strncpy s (MAX_NAME - 1)⟩ :: ht.buckets key)⟩
  | _, _ => ht

/-- The scan loop of `encontrarSuspeito` over one chain. -/
def procurar (pista : CStr) : List HashEntry → Option CStr
  | [] => none
  | cur :: prox => if strcmp cur.pista pista = 0 then some cur.suspeito else procurar pista prox

/-- The function `encontrarSuspeito`: the value of the first entry of the key's
chain whose key equals `pista`, or `NULL`. -/
def encontrarSuspeito (ht : HashTable) (pista : Option CStr) : Option CStr :=
  match pista with
  | none => none
  | some p => procurar p (ht.buckets (hash_djb2 p))

/-- The table obtained from `ht` by one `inserirNaHash` call per pair, in order. -/
def inserirTodasNaHash (ht : HashTable) (pares : List (CStr × CStr)) : HashTable :=
  pares.foldl (fun h par => inserirNaHash h (some par.1) (some par.2)) ht

/-- The value of the most recent pair whose key is `c`, if any. -/
def ultimaAssociacao (c : CStr) : List (CStr × CStr) → Option CStr
  | [] => none
  | par :: resto =>
    match ultimaAssociacao c resto with
    | some s => some s
    | none => if par.1 = c then some par.2 else none

/-! ## Verdict -/

/-- The function `imprimirPistasComContagem`: the lines printed, in order, each as
`(pista, contador, suspeito or none)`. -/
def imprimirPistasComContagem (raiz : BSTNode) (ht : HashTable) :
    List (CStr × Int × Option CStr) :=
  match raiz with
  | .nil => []
  | .node txt c esq dir =>
    imprimirPistasComContagem esq ht ++
      (txt, c, encontrarSuspeito ht (some txt)) :: imprimirPistasComContagem dir ht

/-- The total of `contadorPistasParaSuspeito` with every addition exact: left
total, plus the node counter when the node text maps to `suspeito`, plus right
total. It is what the function returns as long as the total stays in the range
of `int`; `contadorPistasParaSuspeito32` is the function with `int` additions,
and returns this total reduced by `int32`. -/
def contadorPistasParaSuspeito (raiz : BSTNode) (ht : HashTable) (suspeito : CStr) : Int :=
  match raiz with
  | .nil => 0
  | .node txt c esq dir =>
    let total := 0 + contadorPistasParaSuspeito esq ht suspeito
    let total :=
      match encontrarSuspeito ht (some txt) with
      | some s => if strcmp s suspeito = 0 then total + c else total
      | none => total
    total + contadorPistasParaSuspeito dir ht suspeito

/-- The function `contadorPistasParaSuspeito` with its `int` arithmetic: `total`
starts at 0 and each `+=` is an `int` addition. -/
def contadorPistasParaSuspeito32 (raiz : BSTNode) (ht : HashTable) (suspeito : CStr) : Int :=
  match raiz with
  | .nil => 0
  | .node txt c esq dir =>
    let total := int32 (0 + contadorPistasParaSuspeito32 esq ht suspeito)
    let total :=
      match encontrarSuspeito ht (some txt) with
      | some s => if strcmp s suspeito = 0 then int32 (total + c) else total
      | none => total
    int32 (total + contadorPistasParaSuspeito32 dir ht suspeito)

/-- What `verificarSuspeitoFinal` reports after the summary. -/
inductive Veredito where
  | entradaInvalida
  | nenhumaAcusacao
  | acusacaoValida (cont : Int)
  | acusacaoFraca (cont : Int)
deriving DecidableEq

/-- The accusation buffer after `if (len > 0 && acusado[len-1] == 10) acusado[len-1] = 0`. -/
def removerNewline (acusado : CStr) : CStr :=
  match acusado.getLast? with
  | some b => if b.val = 10 then acusado.dropLast else acusado
  | none => acusado

/-- The function `verificarSuspeitoFinal`, given what `fgets` returned (`none` for
`NULL`, otherwise the line read, newline included when there is one): the
empty accusation returns before the clue count is computed; otherwise the
count decides with the fixed threshold 2. -/
def verificarSuspeitoFinal (raizPistas : BSTNode) (ht : HashTable) (linha : Option CStr) :
    Veredito :=
  match linha with
  | none => .entradaInvalida
  | some buffer =>
    let acusado := removerNewline buffer
    if acusado = [] then .nenhumaAcusacao
    else
      let cont := contadorPistasParaSuspeito32 raizPistas ht acusado
      if cont ≥ 2 then .acusacaoValida cont else .acusacaoFraca cont

/-! ## Rooms -/

/-- A `Sala`: name, clue text (`[]` for no clue) and the two child pointers. -/
inductive Sala where
  | mk (nome pista : CStr) (esquerda direita : Option Sala) : Sala

/-- Field `nome`. -/
def Sala.nome : Sala → CStr
  | .mk n _ _ _ => n

/-- Field `pista`. -/
def Sala.pista : Sala → CStr
  | .mk _ p _ _ => p

/-- Field `esquerda`. -/
def Sala.esquerda : Sala → Option Sala
  | .mk _ _ e _ => e

/-- Field `direita`. -/
def Sala.direita : Sala → Option Sala
  | .mk _ _ _ d => d

/-- The function `criarSala`: both texts cut to `MAX_NAME - 1` bytes, no children. -/
def criarSala (nome : CStr) (pista : Option CStr) : Sala :=
  .mk (strncpy nome (MAX_NAME - 1))
    (match pista with
      | some p => if p ≠ [] then strncpy p (MAX_NAME - 1) else []
      | none => [])
    none none

/-- The assignments `s->esquerda = e; s->direita = d` that `main` uses to wire the map. -/
def Sala.ligar (s : Sala) (e d : Option Sala) : Sala := .mk s.nome s.pista e d

/-! ## Navigator (`explorarSalas`, richer variant) -/

/-- The local state of `explorarSalas` at the head of its loop, with the clue
tree it owns through `raizPistas`. `pilha` is the whole array, `topo` the index
of its top cell (`-1` when empty). -/
structure Estado where
  atual : Sala
  pilha : List Sala
  topo : Int
  raizPistas : BSTNode

/-- The undo history: cells `0 .. topo` of the array, bottom first. -/
def Estado.historico (e : Estado) : List Sala := e.pilha.take (e.topo + 1).toNat

/-- Outcome of running the loop: still looping in state `e`, returned (the locals
are gone, the caller keeps the clue tree), or an access to `pilha` outside the
array. -/
inductive Passo where
  | segue (e : Estado)
  | fim (raizPistas : BSTNode)
  | foraDosLimites

/-- The read `pilha[i]`, `none` when `i` is outside the array. -/
def lerPilha (pilha : List Sala) (i : Int) : Option Sala :=
  if 0 ≤ i then pilha.get? i.toNat else none

/-- The write `pilha[i] = s`, `none` when `i` is outside the array. -/
def escreverPilha (pilha : List Sala) (i : Int) (s : Sala) : Option (List Sala) :=
  if 0 ≤ i ∧ i.toNat < pilha.length then some (pilha.set i.toNat s) else none

/-- The clue collection at the top of the loop body: a non-empty clue text that
`buscarPistaNode` does not find is inserted, one that it finds changes nothing.
The table `ht` is only read here, to print the suspect, so it is not part of
the state. -/
def coletar (e : Estado) : Estado :=
  if e.atual.pista ≠ [] then
    match buscarPistaNode e.raizPistas (some e.atual.pista) with
    | .nil => { e with raizPistas := inserirPista e.raizPistas (some e.atual.pista) }
    | .node _ _ _ _ => e
  else e

/-- The token dispatch at the bottom of the loop body. -/
def mover (e : Estado) (entrada : CStr) : Passo :=
  if strcmp entrada (cstr [101]) = 0 ∨ strcmp entrada (cstr [69]) = 0 then
    match e.atual.esquerda with
    | some filho =>
      if e.topo + 1 ≥ (STACK_MAX : Int) then .segue e
      else
        match escreverPilha e.pilha (e.topo + 1) e.atual with
        | some pilha => .segue { e with pilha := pilha, topo := e.topo + 1, atual := filho }
        | none => .foraDosLimites
    | none => .segue e
  else if strcmp entrada (cstr [100]) = 0 ∨ strcmp entrada (cstr [68]) = 0 then
    match e.atual.direita with
    | some filho =>
      if e.topo + 1 ≥ (STACK_MAX : Int) then .segue e
      else
        match escreverPilha e.pilha (e.topo + 1) e.atual with
        | some pilha => .segue { e with pilha := pilha, topo := e.topo + 1, atual := filho }
        | none => .foraDosLimites
    | none => .segue e
  else if strcmp entrada (cstr [98]) = 0 ∨ strcmp entrada (cstr [66]) = 0 then
    if e.topo ≥ 0 then
      match lerPilha e.pilha e.topo with
      | some sala => .segue { e with atual := sala, topo := e.topo - 1 }
      | none => .foraDosLimites
    else .segue e
  else if strcmp entrada (cstr [115]) = 0 ∨ strcmp entrada (cstr [83]) = 0 then .fim e.raizPistas
  else .segue e

/-- One pass through the loop body: collect, then read a token (`none` when
`scanf` fails, which re-enters the loop) and dispatch on it. -/
def iterar (e : Estado) (entrada : Option CStr) : Passo :=
  match entrada with
  | none => .segue (coletar e)
  | some tok => mover (coletar e) tok

/-- The loop of `explorarSalas` fed with the given tokens: `segue e` when it is
back at the loop head in state `e` with the tokens used up. -/
def laco (e : Estado) : List (Option CStr) → Passo
  | [] => .segue e
  | entrada :: resto =>
    match iterar e entrada with
    | .segue e1 => laco e1 resto
    | .fim pistas => .fim pistas
    | .foraDosLimites => .foraDosLimites

/-- State on entry to the loop: `topo = -1`, `atual = raiz`; `pilha0` is the
indeterminate initial content of the array. -/
def estadoInicial (raiz : Sala) (raizPistas : BSTNode) (pilha0 : List Sala) : Estado :=
  { atual := raiz, pilha := pilha0, topo := -1, raizPistas := raizPistas }

/-- The function `explorarSalas`: returns at once on a `NULL` map, otherwise runs
the loop from the root. -/
def explorarSalas (raiz : Option Sala) (raizPistas : BSTNode) (pilha0 : List Sala)
    (entradas : List (Option CStr)) : Passo :=
  match raiz with
  | none => .fim raizPistas
  | some r => laco (estadoInicial r raizPistas pilha0) entradas

/-- States at the loop head that `explorarSalas` reaches from `raiz` with an
empty clue tree and an array of `STACK_MAX` cells. -/
def Alcancavel (raiz : Sala) (pilha0 : List Sala) (e : Estado) : Prop :=
  pilha0.length = STACK_MAX ∧
    ∃ entradas, laco (estadoInicial raiz .nil pilha0) entradas = .segue e

/-! ## Invariants used in the proofs -/

/-- The texts stored in the clue tree, in in-order. -/
def BSTNode.textos (raiz : BSTNode) : List CStr := raiz.emOrdem.map (fun n => n.1)

/-- Search-tree ordering as `inserirPista` maintains it: every stored text fits
its buffer, texts on the left compare below the node, texts on the right do
not compare below it. -/
def BSTNode.Ordenada : BSTNode → Prop
  | .nil => True
  | .node txt _ esq dir =>
    txt.length < MAX_NAME ∧ (∀ k ∈ esq.textos, strcmp k txt < 0) ∧
      (∀ k ∈ dir.textos, 0 ≤ strcmp k txt) ∧ esq.Ordenada ∧ dir.Ordenada

/-- Invariant of the loop of `explorarSalas`: the array keeps its `STACK_MAX`
cells, `topo` stays in `-1 .. STACK_MAX - 1`, the clue tree stays ordered. -/
def Estado.Valido (e : Estado) : Prop :=
  e.pilha.length = STACK_MAX ∧ -1 ≤ e.topo ∧ e.topo < (STACK_MAX : Int) ∧ e.raizPistas.Ordenada

/-! ## Concrete inputs -/

/-- A text of exactly `MAX_NAME` bytes (64 times `a`): one byte too long for a buffer. -/
def textoLongo : CStr := List.replicate 64 (Byte.ofNat 97)

/-- The first `MAX_NAME - 1` bytes of `textoLongo` (63 times `a`). -/
def textoCortado : CStr := List.replicate 63 (Byte.ofNat 97)

/-- The text `A`. -/
def textoA : CStr := cstr [65]

/-- The text `B`. -/
def textoB : CStr := cstr [66]

/-- The suspect name `Suspect1`. -/
def suspeito1 : CStr := cstr [83, 117, 115, 112, 101, 99, 116, 49]

/-- The table that maps the clue `A` to `Suspect1`. -/
def tabelaA : HashTable := inserirNaHash inicializarHash (some textoA) (some suspeito1)

/-- The table after registering `A` and `B`, both for `Suspect1`. -/
def tabelaAB : HashTable :=
  inserirTodasNaHash inicializarHash [(textoA, suspeito1), (textoB, suspeito1)]

/-- A clue tree holding `A` with `contador = INT_MAX` and, to its right, `B` with
`contador = 1`. -/
def arvoreCheia : BSTNode :=
  .node textoA 2147483647 .nil (.node textoB 1 .nil .nil)

/-- The token `e` (move left). -/
def tokE : CStr := cstr [101]

/-- The token `d` (move right). -/
def tokD : CStr := cstr [100]

/-- The token `b` (undo). -/
def tokB : CStr := cstr [98]

/-- The token `s` (leave). -/
def tokS : CStr := cstr [115]

/-- Room `Biblioteca`, carrying the clue `A`. -/
def biblioteca : Sala :=
  criarSala (cstr [66, 105, 98, 108, 105, 111, 116, 101, 99, 97]) (some textoA)

/-- Room `Jardim`, no clue. -/
def jardim : Sala := criarSala (cstr [74, 97, 114, 100, 105, 109]) none

/-- Room `Cozinha`, no clue. -/
def cozinha : Sala := criarSala (cstr [67, 111, 122, 105, 110, 104, 97]) none

/-- Room `Sala`, no clue, leading to `Biblioteca` and `Jardim`. -/
def salaEstar : Sala :=
  (criarSala (cstr [83, 97, 108, 97]) none).ligar (some biblioteca) (some jardim)

/-- Room `Hall`, carrying the clue `A`, leading to `Sala` and `Cozinha`. -/
def hall : Sala :=
  (criarSala (cstr [72, 97, 108, 108]) (some textoA)).ligar (some salaEstar) (some cozinha)

/-- An array of `STACK_MAX` cells all pointing at `s`: one possible content of
the uninitialised `pilha`. -/
def pilhaDe (s : Sala) : List Sala := List.replicate STACK_MAX s

/-- The state at the loop head after the tokens `e`, `e` from `Hall`: in
`Biblioteca`, with `Hall` and `Sala` in the history and the clue `A` collected. -/
def estadoNaBiblioteca : Estado :=
  { atual := biblioteca
    pilha := ((pilhaDe hall).set 0 hall).set 1 salaEstar
    topo := 1
    raizPistas := .node textoA 1 .nil .nil }

/-- A corridor: a room with no clue whose left child is a corridor of `n` more rooms. -/
def corredor : Nat → Sala
  | 0 => criarSala textoA none
  | n + 1 => (criarSala textoA none).ligar (some (corredor n)) none

/-- The state at the loop head after 128 tokens `e` from the head of a corridor
of 130 rooms: the history holds `STACK_MAX` rooms. -/
def estadoCheio : Estado :=
  { atual := corredor 1
    pilha := (List.range STACK_MAX).map (fun i => corredor (129 - i))
    topo := 127
    raizPistas := .nil }

/-! ## Rejected actions -/

/-- The actions `explorarSalas` rejects in state `e`, read at the prompt: a failed
`scanf`, a move towards a missing child, an undo with `topo = -1`, or a token
that is none of `e E d D b B s S`. -/
def Rejeitada (e : Estado) (entrada : Option CStr) : Prop :=
  match entrada with
  | none => True
  | some tok =>
    ((tok = cstr [101] ∨ tok = cstr [69]) ∧ e.atual.esquerda = none) ∨
    ((tok = cstr [100] ∨ tok = cstr [68]) ∧ e.atual.direita = none) ∨
    ((tok = cstr [98] ∨ tok = cstr [66]) ∧ e.topo = -1) ∨
    tok ∉ [cstr [101], cstr [69], cstr [100], cstr [68], cstr [98], cstr [66],
      cstr [115], cstr [83]]

/-! ## Enumeration of the suspects -/

/-- The inner loops of `coletarSuspeitosUnicos` over one chain: `nomes` holds the
rows `0 .. qtd - 1` written so far (so `qtd` is its length); a value no row
compares equal to is copied, cut to `MAX_NAME - 1` bytes, into row `qtd`. The
flag says that the function returned because `qtd` reached `HASH_SIZE`. -/
def coletarCadeia (nomes : List CStr) : List HashEntry → List CStr × Bool
  | [] => (nomes, false)
  | e :: prox =>
    if nomes.any (fun nome => strcmp nome e.suspeito = 0) then coletarCadeia nomes prox
    else
      if (nomes ++ [strncpy e.suspeito (MAX_NAME - 1)]).length ≥ HASH_SIZE then
        (nomes ++ [strncpy e.suspeito (MAX_NAME - 1)], true)
      else coletarCadeia (nomes ++ [strncpy e.suspeito (MAX_NAME - 1)]) prox

/-- The outer loop of `coletarSuspeitosUnicos` over the buckets still to visit. -/
def coletarBuckets (ht : HashTable) : List (Fin HASH_SIZE) → List CStr → List CStr
  | [], nomes => nomes
  | i :: resto, nomes =>
    match coletarCadeia nomes (ht.buckets i) with
    | (nomes1, true) => nomes1
    | (nomes1, false) => coletarBuckets ht resto nomes1

/-- The function `coletarSuspeitosUnicos`: the rows of `nomes` it has written, in
order; the count it reports in `*qtd` is the length of this list. -/
def coletarSuspeitosUnicos (ht : HashTable) : List CStr :=
  coletarBuckets ht (List.finRange HASH_SIZE) []

/-- Every entry of the table, bucket by bucket, each chain from its head. -/
def HashTable.entradas (ht : HashTable) : List HashEntry :=
  (List.finRange HASH_SIZE).flatMap ht.buckets

/-- The suspect names held as values, in the order of `entradas`. -/
def HashTable.valores (ht : HashTable) : List CStr := ht.entradas.map (fun e => e.suspeito)

/-- The keys held by the table, in the order of `entradas`. -/
def HashTable.chaves (ht : HashTable) : List CStr := ht.entradas.map (fun e => e.pista)

/-- First occurrences: `nomes` followed by the values not yet listed, in order,
each once. -/
def acumular (nomes : List CStr) : List CStr → List CStr
  | [] => nomes
  | s :: resto => if s ∈ nomes then acumular nomes resto else acumular (nomes ++ [s]) resto

/-- Every stored key and value fits its buffer. -/
def HashTable.Cabe (ht : HashTable) : Prop :=
  ∀ i, ∀ e ∈ ht.buckets i, e.pista.length < MAX_NAME ∧ e.suspeito.length < MAX_NAME

/-- Every entry sits in the bucket of its key and no chain holds a key twice. -/
def HashTable.SemRepetir (ht : HashTable) : Prop :=
  ∀ i, (∀ e ∈ ht.buckets i, hash_djb2 e.pista = i) ∧
    ((ht.buckets i).map (fun e => e.pista)).Nodup

/-- 54 calls with distinct one-byte keys (`A`, `B`, ...), each naming itself:
one more distinct name than `HASH_SIZE`. -/
def muitosPares : List (CStr × CStr) :=
  (List.range 54).map (fun i => (cstr [65 + i], cstr [65 + i]))

/-! ## Reference insertion on the in-order list -/

/-- Binary-search-tree ordering: strictly less on the left, strictly greater on
the right, at every node. -/
def BSTNode.ArvoreDeBusca : BSTNode → Prop
  | .nil => True
  | .node txt _ esq dir =>
    (∀ k ∈ esq.textos, strcmp k txt < 0) ∧ (∀ k ∈ dir.textos, 0 < strcmp k txt) ∧
      esq.ArvoreDeBusca ∧ dir.ArvoreDeBusca

/-- Follows the spec's words: the counter of the pair of `t` increased by 1, all
other pairs kept. -/
def incrementar (t : CStr) (l : List (CStr × Int)) : List (CStr × Int) :=
  l.map (fun n => if n.1 = t then (n.1, n.2 + 1) else n)

/-- Follows the spec's words: the pair `(t, 1)` inserted at its sorted position,
before the first pair whose text compares above `t`. -/
def inserirOrdenado (t : CStr) : List (CStr × Int) → List (CStr × Int)
  | [] => [(t, 1)]
  | n :: resto =>
    if strcmp t n.1 < 0 then (t, 1) :: n :: resto else n :: inserirOrdenado t resto

/-- Follows the spec's words: the reference result of `insertOrBump` on the
in-order list: unchanged when `t` is empty, the counter of `t` bumped when `t`
is present, otherwise `(t, 1)` inserted at its sorted position. -/
def inserirReferencia (t : CStr) (l : List (CStr × Int)) : List (CStr × Int) :=
  if t = [] then l
  else if t ∈ l.map (fun n => n.1) then incrementar t l
  else inserirOrdenado t l

/-! ## Position in the map -/

/-- The room `filho` is the left or the right child of `pai`. -/
def EhPai (pai filho : Sala) : Prop := pai.esquerda = some filho ∨ pai.direita = some filho

/-- The child on one side: `false` is `esquerda`, `true` is `direita`. -/
def Sala.filho (s : Sala) (lado : Bool) : Option Sala := if lado then s.direita else s.esquerda

/-- The room reached from `s` by following the sides of `caminho`, if the path
exists in the map. -/
def Sala.descer (s : Sala) : List Bool → Option Sala
  | [] => some s
  | lado :: resto =>
    match s.filho lado with
    | some f => f.descer resto
    | none => none

/-- Every room of the map holds a clue text that fits `char pista[MAX_NAME]`. -/
def Sala.BemFormada : Sala → Prop
  | .mk _ p e d =>
    p.length < MAX_NAME ∧
      (match e with
        | none => True
        | some f => f.BemFormada) ∧
      (match d with
        | none => True
        | some f => f.BemFormada)

/-- The undo history followed by the current room is a chain of rooms, each the
parent of the next, that starts at the root of the map. -/
def Estado.NaTrilha (raiz : Sala) (e : Estado) : Prop :=
  List.Chain' EhPai (e.historico ++ [e.atual]) ∧ (e.historico ++ [e.atual]).head? = some raiz

/-- The rooms that are the current room at the head of the loop, one per pass,
while the loop consumes the tokens. -/
def salasVisitadas (e : Estado) : List (Option CStr) → List Sala
  | [] => [e.atual]
  | entrada :: resto =>
    e.atual ::
      (match iterar e entrada with
        | .segue e1 => salasVisitadas e1 resto
        | .fim _ => []
        | .foraDosLimites => [])

/-! ## The simpler variant (`detectiveQuestNovato.c`) -/

/-- A `Sala` of the simpler variant: a name and the two child pointers. -/
inductive Novato.Sala where
  | mk (nome : CStr) (esquerda direita : Option Novato.Sala) : Novato.Sala

/-- Field `esquerda`. -/
def Novato.Sala.esquerda : Novato.Sala → Option Novato.Sala
  | .mk _ e _ => e

/-- Field `direita`. -/
def Novato.Sala.direita : Novato.Sala → Option Novato.Sala
  | .mk _ _ d => d

/-- Outcome of the loop of the simpler `explorarSalas`: still looping in room
`atual` with the variable `escolha` holding the last character read, or
returned. -/
inductive Novato.Passo where
  | segue (atual : Novato.Sala) (escolha : Nat)
  | fim

/-- One pass through the loop body of the simpler `explorarSalas`: return at a
room with no children; otherwise read a character into `escolha` (`lido` is
`none` when `scanf` fails, which leaves `escolha` as it was) and dispatch on
it. Characters are given by their codes. -/
def Novato.iterar (atual : Novato.Sala) (escolha : Nat) (lido : Option Nat) : Novato.Passo :=
  if atual.esquerda.isNone ∧ atual.direita.isNone then .fim
  else
    let escolha :=
      match lido with
      | some c => c
      | none => escolha
    if escolha = 101 ∨ escolha = 69 then
      match atual.esquerda with
      | some filho => .segue filho escolha
      | none => .segue atual escolha
    else if escolha = 100 ∨ escolha = 68 then
      match atual.direita with
      | some filho => .segue filho escolha
      | none => .segue atual escolha
    else if escolha = 115 ∨ escolha = 83 then .fim
    else .segue atual escolha

/-- The loop of the simpler `explorarSalas` fed with the given reads. -/
def Novato.laco (atual : Novato.Sala) (escolha : Nat) : List (Option Nat) → Novato.Passo
  | [] => .segue atual escolha
  | lido :: resto =>
    match Novato.iterar atual escolha lido with
    | .segue a c => Novato.laco a c resto
    | .fim => .fim

/-- The simpler `explorarSalas`: the loop does not start on a `NULL` room;
`escolha0` is the indeterminate first content of `escolha`. -/
def Novato.explorarSalas (atual : Option Novato.Sala) (escolha0 : Nat)
    (entradas : List (Option Nat)) : Novato.Passo :=
  match atual with
  | none => .fim
  | some a => Novato.laco a escolha0 entradas

/-- The same map seen by the simpler variant: rooms keep their name and their
children and have no clue. -/
def semPista : Sala → Novato.Sala
  | .mk n _ e d =>
    .mk n
      (match e with
        | none => none
        | some f => some (semPista f))
      (match d with
        | none => none
        | some f => some (semPista f))

/-! # Theorems -/

/-! ## `int` arithmetic -/

theorem int32_of_ehInt {x : Int} (h : EhInt x) : int32 x = x := by
  unfold EhInt at h
  unfold int32
  omega

theorem ehInt_int32 (x : Int) : EhInt (int32 x) := by
  unfold EhInt int32
  omega

theorem int32_add_int32 (a b : Int) : int32 (int32 a + b) = int32 (a + b) := by
  unfold int32
  omega

theorem int32_add_int32_dir (a b : Int) : int32 (a + int32 b) = int32 (a + b) := by
  unfold int32
  omega

theorem int32_int32 (a : Int) : int32 (int32 a) = int32 a := by
  unfold int32
  omega

/-! ## `strcmp` is a total order on C strings -/

theorem strcmp_self (a : CStr) : strcmp a a = 0 := by
  induction a with
  | nil => rfl
  | cons x xs ih => simp [strcmp, ih]

theorem strcmp_eq_zero {a b : CStr} (h : strcmp a b = 0) : a = b := by
  induction a generalizing b with
  | nil =>
    cases b with
    | nil => rfl
    | cons y ys =>
      have := y.pos
      simp only [strcmp] at h
      omega
  | cons x xs ih =>
    cases b with
    | nil =>
      have := x.pos
      simp only [strcmp] at h
      omega
    | cons y ys =>
      simp only [strcmp] at h
      by_cases hxy : x.val = y.val
      · rw [if_pos hxy] at h
        have hx : x = y := by
          cases x; cases y; simp_all
        rw [hx, ih h]
      · rw [if_neg hxy] at h
        omega

theorem strcmp_eq_zero_iff (a b : CStr) : strcmp a b = 0 ↔ a = b :=
  ⟨strcmp_eq_zero, fun h => h ▸ strcmp_self a⟩

theorem strcmp_swap (a b : CStr) : strcmp b a = - strcmp a b := by
  induction a generalizing b with
  | nil =>
    cases b with
    | nil => rfl
    | cons y ys => simp [strcmp]
  | cons x xs ih =>
    cases b with
    | nil => simp [strcmp]
    | cons y ys =>
      simp only [strcmp]
      by_cases hxy : x.val = y.val
      · rw [if_pos hxy, if_pos hxy.symm, ih]
      · rw [if_neg hxy, if_neg (fun h => hxy h.symm)]
        omega

theorem strcmp_le_trans {a b c : CStr} (hab : strcmp a b ≤ 0) (hbc : strcmp b c ≤ 0) :
    strcmp a c ≤ 0 := by
  induction a generalizing b c with
  | nil =>
    cases c with
    | nil => simp [strcmp]
    | cons z zs => simp [strcmp]
  | cons x xs ih =>
    cases b with
    | nil =>
      have := x.pos
      simp only [strcmp] at hab
      omega
    | cons y ys =>
      cases c with
      | nil =>
        have := y.pos
        simp only [strcmp] at hbc
        omega
      | cons z zs =>
        simp only [strcmp] at hab hbc ⊢
        by_cases hxy : x.val = y.val
        · by_cases hyz : y.val = z.val
          · rw [if_pos hxy] at hab
            rw [if_pos hyz] at hbc
            rw [if_pos (hxy.trans hyz)]
            exact ih hab hbc
          · rw [if_neg hyz] at hbc
            rw [if_neg (by omega)]
            omega
        · rw [if_neg hxy] at hab
          by_cases hyz : y.val = z.val
          · rw [if_neg (by omega)]
            omega
          · rw [if_neg hyz] at hbc
            rw [if_neg (by omega)]
            omega

theorem strcmp_lt_of_lt_of_le {a b c : CStr} (hab : strcmp a b < 0) (hbc : strcmp b c ≤ 0) :
    strcmp a c < 0 := by
  have hle := strcmp_le_trans (le_of_lt hab) hbc
  rcases lt_or_eq_of_le hle with h | h
  · exact h
  · have hac := strcmp_eq_zero h
    subst hac
    have := strcmp_swap a b
    omega

theorem strcmp_lt_of_le_of_lt {a b c : CStr} (hab : strcmp a b ≤ 0) (hbc : strcmp b c < 0) :
    strcmp a c < 0 := by
  have hle := strcmp_le_trans hab (le_of_lt hbc)
  rcases lt_or_eq_of_le hle with h | h
  · exact h
  · have hac := strcmp_eq_zero h
    subst hac
    have := strcmp_swap a b
    omega

theorem strcmp_strncpy_le (a : CStr) (n : Nat) : strcmp (strncpy a n) a ≤ 0 := by
  induction a generalizing n with
  | nil => simp [strncpy, strcmp]
  | cons x xs ih =>
    cases n with
    | zero => simp [strncpy, strcmp]
    | succ m =>
      have := ih m
      simp only [strncpy, List.take_succ_cons, strcmp, if_true] at this ⊢
      exact this

theorem strcmp_strncpy_ge {p v : CStr} {n : Nat} (h : 0 < strcmp p v) (hv : v.length ≤ n) :
    0 ≤ strcmp (strncpy p n) v := by
  induction v generalizing p n with
  | nil =>
    cases hp : strncpy p n with
    | nil => simp [strcmp]
    | cons y ys => simp [strcmp]
  | cons b bs ih =>
    cases p with
    | nil =>
      simp only [strcmp] at h
      omega
    | cons a as =>
      cases n with
      | zero => simp at hv
      | succ m =>
        simp only [strcmp] at h
        simp only [strncpy, List.take_succ_cons, strcmp]
        by_cases hab : a.val = b.val
        · rw [if_pos hab] at h ⊢
          exact ih h (by simpa using hv)
        · rw [if_neg hab] at h ⊢
          omega

theorem strncpy_length_le (a : CStr) (n : Nat) : (strncpy a n).length ≤ n := by
  simp [strncpy]

theorem strncpy_of_length_le {a : CStr} {n : Nat} (h : a.length ≤ n) : strncpy a n = a := by
  simp [strncpy, List.take_of_length_le h]

/-! ## Clue tree: what one insertion does -/

theorem textos_nil : BSTNode.nil.textos = [] := rfl

theorem textos_node (txt : CStr) (c : Int) (esq dir : BSTNode) :
    (BSTNode.node txt c esq dir).textos = esq.textos ++ txt :: dir.textos := by
  simp [BSTNode.textos, BSTNode.emOrdem]

theorem inserirPista_vazia (raiz : BSTNode) : inserirPista raiz (some []) = raiz := by
  cases raiz <;> simp [inserirPista]

theorem inserirPista_nil {p : CStr} (hp : p ≠ []) :
    inserirPista .nil (some p) = .node (strncpy p (MAX_NAME - 1)) 1 .nil .nil := by
  simp [inserirPista, hp]

theorem inserirPista_node {p : CStr} (hp : p ≠ []) (txt : CStr) (c : Int) (esq dir : BSTNode) :
    inserirPista (.node txt c esq dir) (some p) =
      if strcmp p txt = 0 then .node txt (int32 (c + 1)) esq dir
      else if strcmp p txt < 0 then .node txt c (inserirPista esq (some p)) dir
      else .node txt c esq (inserirPista dir (some p)) := by
  rw [inserirPista]
  simp [hp]

theorem buscarPistaNode_node (p txt : CStr) (c : Int) (esq dir : BSTNode) :
    buscarPistaNode (.node txt c esq dir) (some p) =
      if strcmp p txt = 0 then .node txt c esq dir
      else if strcmp p txt < 0 then buscarPistaNode esq (some p)
      else buscarPistaNode dir (some p) := by
  rw [buscarPistaNode]

theorem buscarPistaNode_nil (p : Option CStr) : buscarPistaNode .nil p = .nil := by
  cases p <;> simp [buscarPistaNode]

/-- A node returned by the search holds the text searched for. -/
theorem buscarPistaNode_texto {raiz : BSTNode} {p txt : CStr} {c : Int} {esq dir : BSTNode}
    (h : buscarPistaNode raiz (some p) = .node txt c esq dir) : txt = p := by
  induction raiz with
  | nil => simp [buscarPistaNode_nil] at h
  | node k n l r ihl ihr =>
    rw [buscarPistaNode_node] at h
    by_cases h0 : strcmp p k = 0
    · rw [if_pos h0] at h
      injection h with h1 _ _ _
      rw [← h1, strcmp_eq_zero h0]
    · rw [if_neg h0] at h
      by_cases h1 : strcmp p k < 0
      · rw [if_pos h1] at h
        exact ihl h
      · rw [if_neg h1] at h
        exact ihr h

/-- A node returned by the search is a node of the tree, with its counter. -/
theorem buscarPistaNode_mem {raiz : BSTNode} {p txt : CStr} {c : Int} {esq dir : BSTNode}
    (h : buscarPistaNode raiz (some p) = .node txt c esq dir) : (txt, c) ∈ raiz.emOrdem := by
  induction raiz with
  | nil => simp [buscarPistaNode_nil] at h
  | node k n l r ihl ihr =>
    rw [buscarPistaNode_node] at h
    simp only [BSTNode.emOrdem, List.mem_append, List.mem_cons]
    by_cases h0 : strcmp p k = 0
    · rw [if_pos h0] at h
      injection h with h1 h2 _ _
      exact Or.inr (Or.inl (by rw [h1, h2]))
    · rw [if_neg h0] at h
      by_cases h1 : strcmp p k < 0
      · rw [if_pos h1] at h
        exact Or.inl (ihl h)
      · rw [if_neg h1] at h
        exact Or.inr (Or.inr (ihr h))

/-- An insertion of a text the search does not find adds one record, holding
the first `MAX_NAME - 1` bytes of the text and counter 1, and keeps the rest. -/
theorem inserirPista_ausente {raiz : BSTNode} {p : CStr} (hp : p ≠ [])
    (h : buscarPistaNode raiz (some p) = .nil) :
    ∃ l1 l2, raiz.emOrdem = l1 ++ l2 ∧
      (inserirPista raiz (some p)).emOrdem = l1 ++ (strncpy p (MAX_NAME - 1), 1) :: l2 := by
  induction raiz with
  | nil => exact ⟨[], [], rfl, by simp [inserirPista_nil hp, BSTNode.emOrdem]⟩
  | node k n l r ihl ihr =>
    rw [buscarPistaNode_node] at h
    rw [inserirPista_node hp]
    by_cases h0 : strcmp p k = 0
    · rw [if_pos h0] at h
      exact absurd h (by simp)
    · rw [if_neg h0] at h ⊢
      by_cases h1 : strcmp p k < 0
      · rw [if_pos h1] at h ⊢
        obtain ⟨l1, l2, e1, e2⟩ := ihl h
        exact ⟨l1, l2 ++ (k, n) :: r.emOrdem, by simp [BSTNode.emOrdem, e1],
          by simp [BSTNode.emOrdem, e2]⟩
      · rw [if_neg h1] at h ⊢
        obtain ⟨l1, l2, e1, e2⟩ := ihr h
        exact ⟨l.emOrdem ++ (k, n) :: l1, l2, by simp [BSTNode.emOrdem, e1],
          by simp [BSTNode.emOrdem, e2]⟩

/-- An insertion of a text the search finds adds 1 to the counter of one record
holding that text and keeps the rest. -/
theorem inserirPista_presente {raiz : BSTNode} {p : CStr} (hp : p ≠ [])
    (h : buscarPistaNode raiz (some p) ≠ .nil) :
    ∃ l1 c l2, raiz.emOrdem = l1 ++ (p, c) :: l2 ∧
      (inserirPista raiz (some p)).emOrdem = l1 ++ (p, int32 (c + 1)) :: l2 := by
  induction raiz with
  | nil => exact absurd (buscarPistaNode_nil _) h
  | node k n l r ihl ihr =>
    rw [buscarPistaNode_node] at h
    rw [inserirPista_node hp]
    by_cases h0 : strcmp p k = 0
    · rw [if_pos h0]
      have hk : p = k := strcmp_eq_zero h0
      subst hk
      exact ⟨l.emOrdem, n, r.emOrdem, by simp [BSTNode.emOrdem], by simp [BSTNode.emOrdem]⟩
    · rw [if_neg h0] at h ⊢
      by_cases h1 : strcmp p k < 0
      · rw [if_pos h1] at h ⊢
        obtain ⟨l1, c, l2, e1, e2⟩ := ihl h
        exact ⟨l1, c, l2 ++ (k, n) :: r.emOrdem, by simp [BSTNode.emOrdem, e1],
          by simp [BSTNode.emOrdem, e2]⟩
      · rw [if_neg h1] at h ⊢
        obtain ⟨l1, c, l2, e1, e2⟩ := ihr h
        exact ⟨l.emOrdem ++ (k, n) :: l1, c, l2, by simp [BSTNode.emOrdem, e1],
          by simp [BSTNode.emOrdem, e2]⟩

/-- The texts stored after an insertion. -/
theorem mem_textos_inserirPista {raiz : BSTNode} {p : CStr} (hp : p ≠ []) (k : CStr) :
    k ∈ (inserirPista raiz (some p)).textos ↔
      k ∈ raiz.textos ∨ (buscarPistaNode raiz (some p) = .nil ∧ k = strncpy p (MAX_NAME - 1)) := by
  by_cases h : buscarPistaNode raiz (some p) = .nil
  · obtain ⟨l1, l2, e1, e2⟩ := inserirPista_ausente hp h
    simp only [BSTNode.textos, e1, e2, h, true_and]
    simp only [List.map_append, List.map_cons, List.mem_append, List.mem_cons]
    tauto
  · obtain ⟨l1, c, l2, e1, e2⟩ := inserirPista_presente hp h
    simp only [BSTNode.textos, e1, e2, h, false_and, or_false]
    simp

/-- Under the ordering invariant the search finds exactly the stored texts. -/
theorem buscarPistaNode_ne_nil_iff {raiz : BSTNode} (ho : raiz.Ordenada) (p : CStr) :
    buscarPistaNode raiz (some p) ≠ .nil ↔ p ∈ raiz.textos := by
  induction raiz with
  | nil => simp [buscarPistaNode_nil, textos_nil]
  | node k n l r ihl ihr =>
    obtain ⟨_, hl, hr, hol, hor⟩ := ho
    rw [buscarPistaNode_node, textos_node]
    by_cases h0 : strcmp p k = 0
    · rw [if_pos h0]
      simp [strcmp_eq_zero h0]
    · rw [if_neg h0]
      have hne : p ≠ k := fun e => h0 (e ▸ strcmp_self p)
      by_cases h1 : strcmp p k < 0
      · rw [if_pos h1, ihl hol]
        simp only [List.mem_append, List.mem_cons, hne, false_or]
        constructor
        · exact Or.inl
        · rintro (h | h)
          · exact h
          · have := hr p h
            omega
      · rw [if_neg h1, ihr hor]
        simp only [List.mem_append, List.mem_cons, hne, false_or]
        constructor
        · exact Or.inr
        · rintro (h | h)
          · exact absurd (hl p h) h1
          · exact h

/-- One insertion keeps the ordering invariant, whatever the length of the text. -/
theorem ordenada_inserirPista {raiz : BSTNode} (ho : raiz.Ordenada) (p : Option CStr) :
    (inserirPista raiz p).Ordenada := by
  cases p with
  | none =>
    have : inserirPista raiz none = raiz := by cases raiz <;> simp [inserirPista]
    rw [this]
    exact ho
  | some p =>
    by_cases hp : p = []
    · subst hp
      rw [inserirPista_vazia]
      exact ho
    · induction raiz with
      | nil =>
        rw [inserirPista_nil hp]
        refine ⟨?_, ?_, ?_, trivial, trivial⟩
        · have := strncpy_length_le p (MAX_NAME - 1)
          simp only [MAX_NAME] at this ⊢
          omega
        · simp [textos_nil]
        · simp [textos_nil]
      | node k n l r ihl ihr =>
        obtain ⟨hk, hl, hr, hol, hor⟩ := ho
        rw [inserirPista_node hp]
        by_cases h0 : strcmp p k = 0
        · rw [if_pos h0]
          exact ⟨hk, hl, hr, hol, hor⟩
        · rw [if_neg h0]
          by_cases h1 : strcmp p k < 0
          · rw [if_pos h1]
            refine ⟨hk, ?_, hr, ihl hol, hor⟩
            intro x hx
            rcases (mem_textos_inserirPista hp x).1 hx with h | ⟨_, h⟩
            · exact hl x h
            · rw [h]
              exact strcmp_lt_of_le_of_lt (strcmp_strncpy_le p _) h1
          · rw [if_neg h1]
            refine ⟨hk, hl, ?_, hol, ihr hor⟩
            intro x hx
            rcases (mem_textos_inserirPista hp x).1 hx with h | ⟨_, h⟩
            · exact hr x h
            · rw [h]
              apply strcmp_strncpy_ge (by omega)
              simp only [MAX_NAME] at hk ⊢
              omega

theorem inserirTodas_append (raiz : BSTNode) (xs : List CStr) (x : CStr) :
    inserirTodas raiz (xs ++ [x]) = inserirPista (inserirTodas raiz xs) (some x) := by
  simp [inserirTodas, List.foldl_append]

theorem ordenada_inserirTodas {raiz : BSTNode} (ho : raiz.Ordenada) (textos : List CStr) :
    (inserirTodas raiz textos).Ordenada := by
  induction textos using List.reverseRecOn with
  | nil => exact ho
  | append_singleton xs x ih =>
    rw [inserirTodas_append]
    exact ordenada_inserirPista ih _

/-- In an ordered tree the in-order walk is non-decreasing under `strcmp`. -/
theorem pairwise_textos {raiz : BSTNode} (ho : raiz.Ordenada) :
    List.Pairwise (fun a b => strcmp a b ≤ 0) raiz.textos := by
  induction raiz with
  | nil => simp [textos_nil]
  | node k n l r ihl ihr =>
    obtain ⟨_, hl, hr, hol, hor⟩ := ho
    rw [textos_node, List.pairwise_append]
    refine ⟨ihl hol, ?_, ?_⟩
    · rw [List.pairwise_cons]
      refine ⟨?_, ihr hor⟩
      intro b hb
      have := hr b hb
      have := strcmp_swap k b
      omega
    · intro a ha b hb
      rcases List.mem_cons.1 hb with h | h
      · rw [h]
        exact le_of_lt (hl a ha)
      · have h1 := hl a ha
        have h2 := hr b h
        have h3 := strcmp_swap k b
        exact le_of_lt (strcmp_lt_of_lt_of_le h1 (by omega))

theorem ordenada_nil : BSTNode.nil.Ordenada := trivial

theorem count_append_singleton (xs : List CStr) (x t : CStr) :
    (xs ++ [x]).count t = xs.count t + (if x = t then 1 else 0) := by
  rw [List.count_append]
  by_cases h : x = t
  · subst h
    simp
  · have : ¬ t = x := fun e => h e.symm
    simp [h, List.count_cons, this]

theorem textos_length_lt {raiz : BSTNode} (ho : raiz.Ordenada) :
    ∀ k ∈ raiz.textos, k.length < MAX_NAME := by
  induction raiz with
  | nil => simp [textos_nil]
  | node k n l r ihl ihr =>
    obtain ⟨hk, _, _, hol, hor⟩ := ho
    intro x hx
    rw [textos_node] at hx
    rcases List.mem_append.1 hx with h | h
    · exact ihl hol x h
    · rcases List.mem_cons.1 h with h | h
      · rw [h]
        exact hk
      · exact ihr hor x h

theorem strncpy_of_lt_MAX_NAME {a : CStr} (h : a.length < MAX_NAME) :
    strncpy a (MAX_NAME - 1) = a := by
  apply strncpy_of_length_le
  simp only [MAX_NAME] at h ⊢
  omega

/-- The texts stored after a run of insertions from the empty tree: the first
`MAX_NAME - 1` bytes of every non-empty text inserted. -/
theorem mem_textos_inserirTodas (textos : List CStr) (k : CStr) :
    k ∈ (inserirTodas .nil textos).textos ↔
      ∃ u ∈ textos, u ≠ [] ∧ strncpy u (MAX_NAME - 1) = k := by
  induction textos using List.reverseRecOn with
  | nil => simp [inserirTodas, textos_nil]
  | append_singleton xs x ih =>
    rw [inserirTodas_append]
    have ho : (inserirTodas .nil xs).Ordenada := ordenada_inserirTodas ordenada_nil xs
    by_cases hx : x = []
    · subst hx
      rw [inserirPista_vazia, ih]
      constructor
      · rintro ⟨u, hu, h1, h2⟩
        exact ⟨u, List.mem_append_left _ hu, h1, h2⟩
      · rintro ⟨u, hu, h1, h2⟩
        rcases List.mem_append.1 hu with h | h
        · exact ⟨u, h, h1, h2⟩
        · simp at h
          exact absurd h h1
    · rw [mem_textos_inserirPista hx]
      constructor
      · rintro (h | ⟨_, h⟩)
        · obtain ⟨u, hu, h1, h2⟩ := ih.1 h
          exact ⟨u, List.mem_append_left _ hu, h1, h2⟩
        · exact ⟨x, by simp, hx, h.symm⟩
      · rintro ⟨u, hu, h1, h2⟩
        rcases List.mem_append.1 hu with h | h
        · exact Or.inl (ih.2 ⟨u, h, h1, h2⟩)
        · have hux : u = x := by simpa using h
          subst hux
          by_cases hb : buscarPistaNode (inserirTodas .nil xs) (some u) = .nil
          · exact Or.inr ⟨hb, h2.symm⟩
          · left
            have hm := (buscarPistaNode_ne_nil_iff ho u).1 hb
            have hl := textos_length_lt ho u hm
            rw [strncpy_of_lt_MAX_NAME hl] at h2
            rw [← h2]
            exact hm

theorem filter_texto_eq_nil {l : List (CStr × Int)} {t : CStr}
    (h : t ∉ l.map (fun n => n.1)) : l.filter (fun n => n.1 = t) = [] := by
  rw [List.filter_eq_nil_iff]
  intro n hn
  simp only [decide_eq_true_eq]
  intro hnt
  exact h (List.mem_map.2 ⟨n, hn, hnt⟩)

theorem append_cons_eq_singleton {α : Type} {l1 l2 : List α} {a b : α}
    (h : l1 ++ a :: l2 = [b]) : l1 = [] ∧ a = b ∧ l2 = [] := by
  cases l1 with
  | nil =>
    simp only [List.nil_append, List.cons.injEq] at h
    exact ⟨rfl, h.1, h.2⟩
  | cons x xs =>
    simp at h

/-- Counting invariant behind claim C1, for any number of occurrences. -/
theorem filter_emOrdem_inserirTodas (t : CStr) (textos : List CStr)
    (hne : t ≠ []) (hlen : t.length < MAX_NAME)
    (hout : ∀ u ∈ textos, strncpy u (MAX_NAME - 1) = t → u = t) :
    (inserirTodas .nil textos).emOrdem.filter (fun n => n.1 = t) =
      if textos.count t = 0 then [] else [(t, int32 (textos.count t : Int))] := by
  induction textos using List.reverseRecOn with
  | nil => simp [inserirTodas, BSTNode.emOrdem]
  | append_singleton xs x ih =>
    have ih := ih (fun u hu => hout u (List.mem_append_left _ hu))
    have hx := hout x (by simp)
    rw [inserirTodas_append]
    have ho : (inserirTodas .nil xs).Ordenada := ordenada_inserirTodas ordenada_nil xs
    by_cases hxe : x = []
    · subst hxe
      have : ([] : CStr) ≠ t := fun h => hne h.symm
      rw [inserirPista_vazia, ih, count_append_singleton]
      simp [this]
    · by_cases hb : buscarPistaNode (inserirTodas .nil xs) (some x) = .nil
      · obtain ⟨l1, l2, e1, e2⟩ := inserirPista_ausente hxe hb
        rw [e2]
        rw [e1] at ih
        simp only [List.filter_append, List.filter_cons] at ih ⊢
        by_cases hxt : x = t
        · subst hxt
          have hnm : x ∉ (inserirTodas .nil xs).textos := by
            intro hm
            exact ((buscarPistaNode_ne_nil_iff ho x).2 hm) hb
          have hnil := filter_texto_eq_nil hnm
          rw [e1] at hnil
          simp only [List.filter_append] at hnil
          rw [hnil] at ih
          have hc : xs.count x = 0 := by
            by_contra hc
            rw [if_neg hc] at ih
            simp at ih
          obtain ⟨h1, h2⟩ := List.append_eq_nil.1 hnil
          have h1i : int32 1 = 1 := by decide
          rw [count_append_singleton]
          simp [h1, h2, strncpy_of_lt_MAX_NAME hlen, hc, h1i]
        · have hst : strncpy x (MAX_NAME - 1) ≠ t := fun h => hxt (hx h)
          simp only [hst, decide_False, Bool.false_eq_true, if_false]
          rw [ih, count_append_singleton]
          simp [hxt]
      · obtain ⟨l1, c, l2, e1, e2⟩ := inserirPista_presente hxe hb
        rw [e2]
        rw [e1] at ih
        simp only [List.filter_append, List.filter_cons] at ih ⊢
        by_cases hxt : x = t
        · subst hxt
          simp only [decide_True, if_true] at ih ⊢
          by_cases hc : xs.count x = 0
          · rw [if_pos hc] at ih
            simp at ih
          · rw [if_neg hc] at ih
            obtain ⟨h1, h2, h3⟩ := append_cons_eq_singleton ih
            have hcc : c = int32 (xs.count x : Int) := by
              injection h2
            rw [count_append_singleton]
            simp [h1, h3, hcc, int32_add_int32]
        · simp only [hxt, decide_False, Bool.false_eq_true, if_false] at ih ⊢
          rw [ih, count_append_singleton]
          simp [hxt]

theorem map_imprimirPistasComContagem (raiz : BSTNode) (ht : HashTable) :
    (imprimirPistasComContagem raiz ht).map (fun linha => linha.1) = raiz.textos := by
  induction raiz with
  | nil => simp [imprimirPistasComContagem, textos_nil]
  | node k n l r ihl ihr =>
    simp [imprimirPistasComContagem, textos_node, ihl, ihr]

/-! ## Claims on the clue tree -/

/-- C1 (as amended): for every non-empty clue text `t` of at most `MAX_NAME - 1`
bytes and every sequence of `inserirPista` calls from the empty tree that
contains `t` exactly `k` times with `1 ≤ k ≤ 2147483647` (`INT_MAX`),
interleaved in any order with other texts none of which has `t` as its first
`MAX_NAME - 1` bytes, the resulting tree holds exactly one node whose text is
`t`, and its `contador` is `k`. -/
theorem inserirPista_conta_repeticoes (t : CStr) (textos : List CStr)
    (hne : t ≠ []) (hlen : t.length < MAX_NAME)
    (hout : ∀ u ∈ textos, strncpy u (MAX_NAME - 1) = t → u = t)
    (hk : 1 ≤ textos.count t) (hmax : textos.count t ≤ 2147483647) :
    (inserirTodas .nil textos).emOrdem.filter (fun n => n.1 = t) =
      [(t, (textos.count t : Int))] := by
  rw [filter_emOrdem_inserirTodas t textos hne hlen hout, if_neg (by omega),
    int32_of_ehInt (by unfold EhInt; omega)]

/-- Witness for C1: `A`, `B`, `A` leaves one record for `A`, with counter 2. -/
theorem inserirPista_conta_repeticoes_witness :
    (inserirTodas .nil [textoA, textoB, textoA]).emOrdem.filter (fun n => n.1 = textoA) =
      [(textoA, 2)] :=
  inserirPista_conta_repeticoes textoA [textoA, textoB, textoA]
    (by decide) (by decide) (by decide) (by decide) (by decide)

/-- C1 fails as stated: a text of 64 bytes inserted twice leaves two nodes, both
holding its first 63 bytes with counter 1, and none holding the text; the empty
text inserted once leaves no node; a 63-byte text inserted once after a longer
text that starts with it ends with counter 2; and the text `A` inserted
2147483648 times (`INT_MAX + 1`) ends with counter -2147483648. -/
theorem inserirPista_conta_repeticoes_falha :
    (inserirTodas .nil [textoLongo, textoLongo]).emOrdem =
        [(textoCortado, 1), (textoCortado, 1)] ∧
      (inserirTodas .nil [textoLongo, textoLongo]).emOrdem.filter
          (fun n => n.1 = textoLongo) ≠ [(textoLongo, 2)] ∧
      (inserirTodas .nil [[]]).emOrdem.filter (fun n => n.1 = []) ≠ [([], 1)] ∧
      (inserirTodas .nil [textoLongo, textoCortado]).emOrdem.filter
          (fun n => n.1 = textoCortado) ≠ [(textoCortado, 1)] ∧
      (List.replicate 2147483648 textoA).count textoA = 2147483648 ∧
      (inserirTodas .nil (List.replicate 2147483648 textoA)).emOrdem.filter
          (fun n => n.1 = textoA) = [(textoA, -2147483648)] ∧
      (inserirTodas .nil (List.replicate 2147483648 textoA)).emOrdem.filter
          (fun n => n.1 = textoA) ≠ [(textoA, 2147483648)] := by
  have h : (inserirTodas .nil (List.replicate 2147483648 textoA)).emOrdem.filter
      (fun n => n.1 = textoA) = [(textoA, -2147483648)] := by
    rw [filter_emOrdem_inserirTodas textoA _ (by decide) (by decide)
      (fun u hu _ => List.eq_of_mem_replicate hu), List.count_replicate_self]
    decide
  refine ⟨by decide, by decide, by decide, by decide, List.count_replicate_self _ _, h, ?_⟩
  rw [h]
  decide

/-- C2: for every sequence of `inserirPista` calls from the empty tree, the
texts printed by the in-order walk of `imprimirPistasComContagem` are in
non-decreasing `strcmp` order (every text compares at most equal to every
later one). -/
theorem imprimirPistasComContagem_ordenado (textos : List CStr) (ht : HashTable) :
    List.Pairwise (fun a b => strcmp a b ≤ 0)
      ((imprimirPistasComContagem (inserirTodas .nil textos) ht).map (fun linha => linha.1)) := by
  rw [map_imprimirPistasComContagem]
  exact pairwise_textos (ordenada_inserirTodas ordenada_nil textos)

/-- C3 (as amended): on a tree built from the empty tree by `inserirPista` calls,
`buscarPistaNode` returns a node exactly when the text searched is the first
`MAX_NAME - 1` bytes of a non-empty inserted text, the node returned is a node
of the tree and holds the text searched, and when every inserted text has at
most `MAX_NAME - 1` bytes it returns a node exactly when the text is non-empty
and was inserted. The search is a read: it has no tree to hand back. -/
theorem buscarPistaNode_inserirTodas (textos : List CStr) (t : CStr) :
    (buscarPistaNode (inserirTodas .nil textos) (some t) ≠ .nil ↔
        ∃ u ∈ textos, u ≠ [] ∧ strncpy u (MAX_NAME - 1) = t) ∧
      (∀ txt c esq dir,
        buscarPistaNode (inserirTodas .nil textos) (some t) = .node txt c esq dir →
          txt = t ∧ (t, c) ∈ (inserirTodas .nil textos).emOrdem) ∧
      ((∀ u ∈ textos, u.length < MAX_NAME) →
        (buscarPistaNode (inserirTodas .nil textos) (some t) ≠ .nil ↔ t ∈ textos ∧ t ≠ [])) := by
  have ho := ordenada_inserirTodas ordenada_nil textos
  have hiff := (buscarPistaNode_ne_nil_iff ho t).trans (mem_textos_inserirTodas textos t)
  refine ⟨hiff, fun txt c esq dir h =>
    ⟨buscarPistaNode_texto h, buscarPistaNode_texto h ▸ buscarPistaNode_mem h⟩, fun hlen => ?_⟩
  rw [hiff]
  constructor
  · rintro ⟨u, hu, h1, h2⟩
    rw [strncpy_of_lt_MAX_NAME (hlen u hu)] at h2
    subst h2
    exact ⟨hu, h1⟩
  · rintro ⟨ht, h1⟩
    exact ⟨t, ht, h1, strncpy_of_lt_MAX_NAME (hlen t ht)⟩

/-- Witness for C3: after inserting `A` and `B`, the search for `A` returns a
node holding `A`, and the search for the text never inserted returns `NULL`. -/
theorem buscarPistaNode_inserirTodas_witness :
    (∀ u ∈ [textoA, textoB], u.length < MAX_NAME) ∧
      buscarPistaNode (inserirTodas .nil [textoA, textoB]) (some textoA) ≠ .nil ∧
      ¬ buscarPistaNode (inserirTodas .nil [textoA, textoB]) (some textoCortado) ≠ .nil :=
  ⟨by decide,
    ((buscarPistaNode_inserirTodas [textoA, textoB] textoA).2.2 (by decide)).2
      ⟨by decide, by decide⟩,
    fun h => absurd
      (((buscarPistaNode_inserirTodas [textoA, textoB] textoCortado).2.2 (by decide)).1 h).1
      (by decide)⟩

/-- C3 fails as stated: the empty text and a 64-byte text are not found after
being inserted, and the 63-byte text that was never inserted is found after the
64-byte text that starts with it was. -/
theorem buscarPistaNode_inserirTodas_falha :
    buscarPistaNode (inserirTodas .nil [[]]) (some []) = .nil ∧
      buscarPistaNode (inserirTodas .nil [textoLongo]) (some textoLongo) = .nil ∧
      buscarPistaNode (inserirTodas .nil [textoLongo]) (some textoCortado) =
        .node textoCortado 1 .nil .nil := by
  decide

/-! ## Suspect table -/

theorem procurar_sobrescrever {k s c : CStr} {cadeia nova : List HashEntry}
    (h : sobrescrever k s cadeia = some nova) :
    procurar c nova = if c = k then some (strncpy s (MAX_NAME - 1)) else procurar c cadeia := by
  induction cadeia generalizing nova with
  | nil => simp [sobrescrever] at h
  | cons cur prox ih =>
    simp only [sobrescrever] at h
    by_cases h0 : strcmp cur.pista k = 0
    · rw [if_pos h0] at h
      have hk : cur.pista = k := strcmp_eq_zero h0
      injection h with h
      subst h
      simp only [procurar, strcmp_eq_zero_iff, hk]
      by_cases hc : k = c
      · simp [hc]
      · have : ¬ c = k := fun e => hc e.symm
        simp [hc, this]
    · rw [if_neg h0] at h
      cases hs : sobrescrever k s prox with
      | none => simp [hs] at h
      | some resto =>
        rw [hs] at h
        simp only [Option.map_some'] at h
        injection h with h
        subst h
        simp only [procurar, strcmp_eq_zero_iff, ih hs]
        by_cases hc : cur.pista = c
        · have : ¬ c = k := by
            intro e
            apply h0
            rw [hc, e]
            exact strcmp_self k
          simp [hc, this]
        · simp [hc]

theorem procurar_cons (c : CStr) (cur : HashEntry) (prox : List HashEntry) :
    procurar c (cur :: prox) = if cur.pista = c then some cur.suspeito else procurar c prox := by
  simp [procurar, strcmp_eq_zero_iff]

/-- One `inserirNaHash` with a key that fits its buffer: the key now maps to the
first `MAX_NAME - 1` bytes of the name, every other key maps as before. -/
theorem encontrarSuspeito_inserirNaHash (ht : HashTable) {k : CStr} (s c : CStr)
    (hk : k.length < MAX_NAME) :
    encontrarSuspeito (inserirNaHash ht (some k) (some s)) (some c) =
      if c = k then some (strncpy s (MAX_NAME - 1)) else encontrarSuspeito ht (some c) := by
  simp only [inserirNaHash, encontrarSuspeito]
  cases hs : sobrescrever k s (ht.buckets (hash_djb2 k)) with
  | some cadeia =>
    simp only
    by_cases hh : hash_djb2 c = hash_djb2 k
    · rw [hh, Function.update_same, procurar_sobrescrever hs]
    · rw [Function.update_noteq hh]
      have : ¬ c = k := fun e => hh (e ▸ rfl)
      rw [if_neg this]
  | none =>
    simp only
    by_cases hh : hash_djb2 c = hash_djb2 k
    · rw [hh, Function.update_same, procurar_cons, strncpy_of_lt_MAX_NAME hk]
      by_cases hc : k = c
      · simp [hc]
      · have : ¬ c = k := fun e => hc e.symm
        simp [hc, this]
    · rw [Function.update_noteq hh]
      have : ¬ c = k := fun e => hh (e ▸ rfl)
      rw [if_neg this]

/-- A run of `inserirNaHash` calls with keys that fit: the most recent name for
the key, cut to `MAX_NAME - 1` bytes, or what the table held before. -/
theorem encontrarSuspeito_inserirTodasNaHash (ht : HashTable) (pares : List (CStr × CStr))
    (c : CStr) (hk : ∀ par ∈ pares, par.1.length < MAX_NAME) :
    encontrarSuspeito (inserirTodasNaHash ht pares) (some c) =
      match ultimaAssociacao c pares with
      | some s => some (strncpy s (MAX_NAME - 1))
      | none => encontrarSuspeito ht (some c) := by
  induction pares generalizing ht with
  | nil => simp [inserirTodasNaHash, ultimaAssociacao]
  | cons par resto ih =>
    have hr : ∀ q ∈ resto, q.1.length < MAX_NAME := fun q hq => hk q (List.mem_cons_of_mem _ hq)
    have hp : par.1.length < MAX_NAME := hk par (List.mem_cons_self _ _)
    have := ih (inserirNaHash ht (some par.1) (some par.2)) hr
    simp only [inserirTodasNaHash, List.foldl_cons] at this ⊢
    rw [this, ultimaAssociacao]
    cases hu : ultimaAssociacao c resto with
    | some s => rfl
    | none =>
      simp only
      rw [encontrarSuspeito_inserirNaHash ht par.2 c hp]
      by_cases hc : par.1 = c
      · simp [hc]
      · have : ¬ c = par.1 := fun e => hc e.symm
        simp [hc, this]

theorem ultimaAssociacao_mem {c s : CStr} {pares : List (CStr × CStr)}
    (h : ultimaAssociacao c pares = some s) : (c, s) ∈ pares := by
  induction pares with
  | nil => simp [ultimaAssociacao] at h
  | cons par resto ih =>
    rw [ultimaAssociacao] at h
    cases hu : ultimaAssociacao c resto with
    | some s1 =>
      rw [hu] at h
      simp only [Option.some.injEq] at h
      subst h
      exact List.mem_cons_of_mem _ (ih hu)
    | none =>
      rw [hu] at h
      simp only at h
      by_cases hc : par.1 = c
      · rw [if_pos hc] at h
        injection h with h
        rw [← hc, ← h]
        exact List.mem_cons_self _ _
      · rw [if_neg hc] at h
        exact absurd h (by simp)

/-- C4 (as amended): after any sequence of `inserirNaHash` calls on an initialised
table whose keys have at most `MAX_NAME - 1` bytes, `encontrarSuspeito(c)`
returns the first `MAX_NAME - 1` bytes of the name given in the most recent call
whose key was `c` (last write wins), `NULL` when no call used key `c`; when the
names have at most `MAX_NAME - 1` bytes too it returns that name itself. -/
theorem encontrarSuspeito_ultima_associacao (pares : List (CStr × CStr)) (c : CStr)
    (hk : ∀ par ∈ pares, par.1.length < MAX_NAME) :
    encontrarSuspeito (inserirTodasNaHash inicializarHash pares) (some c) =
        (ultimaAssociacao c pares).map (fun s => strncpy s (MAX_NAME - 1)) ∧
      ((∀ par ∈ pares, par.2.length < MAX_NAME) →
        encontrarSuspeito (inserirTodasNaHash inicializarHash pares) (some c) =
          ultimaAssociacao c pares) := by
  have h := encontrarSuspeito_inserirTodasNaHash inicializarHash pares c hk
  have h0 : encontrarSuspeito inicializarHash (some c) = none := by
    simp [encontrarSuspeito, inicializarHash, procurar]
  have h1 : encontrarSuspeito (inserirTodasNaHash inicializarHash pares) (some c) =
      (ultimaAssociacao c pares).map (fun s => strncpy s (MAX_NAME - 1)) := by
    rw [h]
    cases ultimaAssociacao c pares with
    | some s => rfl
    | none => simpa using h0
  refine ⟨h1, fun hs => ?_⟩
  rw [h1]
  cases hu : ultimaAssociacao c pares with
  | none => rfl
  | some s =>
    have := hs _ (ultimaAssociacao_mem hu)
    simp only [Option.map_some']
    rw [strncpy_of_lt_MAX_NAME this]

/-- Witness for C4: `A` mapped to `A` and then to `B` is looked up as `B`. -/
theorem encontrarSuspeito_ultima_associacao_witness :
    (∀ par ∈ [(textoA, textoA), (textoA, textoB)], par.1.length < MAX_NAME) ∧
      (∀ par ∈ [(textoA, textoA), (textoA, textoB)], par.2.length < MAX_NAME) ∧
      encontrarSuspeito
          (inserirTodasNaHash inicializarHash [(textoA, textoA), (textoA, textoB)]) (some textoA) =
        ultimaAssociacao textoA [(textoA, textoA), (textoA, textoB)] ∧
      ultimaAssociacao textoA [(textoA, textoA), (textoA, textoB)] = some textoB :=
  ⟨by decide, by decide,
    (encontrarSuspeito_ultima_associacao [(textoA, textoA), (textoA, textoB)] textoA
      (by decide)).2 (by decide),
    by decide⟩

set_option maxRecDepth 8000 in
/-- C4 fails as stated: a 64-byte key is not found after being registered, and a
64-byte name is returned cut to 63 bytes. -/
theorem encontrarSuspeito_ultima_associacao_falha :
    encontrarSuspeito (inserirTodasNaHash inicializarHash [(textoLongo, textoA)])
        (some textoLongo) = none ∧
      encontrarSuspeito (inserirTodasNaHash inicializarHash [(textoA, textoLongo)])
        (some textoA) = some textoCortado ∧
      textoCortado ≠ textoLongo := by
  refine ⟨?_, ?_, ?_⟩ <;> decide

/-! ## Verdict -/

theorem contadorPistasParaSuspeito_eq_sum (raiz : BSTNode) (ht : HashTable) (nome : CStr) :
    contadorPistasParaSuspeito raiz ht nome =
      ((raiz.emOrdem.filter
        (fun n => encontrarSuspeito ht (some n.1) = some nome)).map (fun n => n.2)).sum := by
  induction raiz with
  | nil => simp [contadorPistasParaSuspeito, BSTNode.emOrdem]
  | node k n l r ihl ihr =>
    simp only [contadorPistasParaSuspeito, BSTNode.emOrdem, List.filter_append,
      List.filter_cons, List.map_append, List.sum_append, ihl, ihr, zero_add]
    cases he : encontrarSuspeito ht (some k) with
    | none => simp
    | some s =>
      by_cases hs : s = nome
      · subst hs
        simp [strcmp_self]
        ring
      · have : ¬ strcmp s nome = 0 := fun h => hs (strcmp_eq_zero h)
        simp [hs, this]

theorem contadorPistasParaSuspeito32_eq (raiz : BSTNode) (ht : HashTable) (nome : CStr) :
    contadorPistasParaSuspeito32 raiz ht nome =
      int32 (contadorPistasParaSuspeito raiz ht nome) := by
  induction raiz with
  | nil => rfl
  | node k n l r ihl ihr =>
    simp only [contadorPistasParaSuspeito32, contadorPistasParaSuspeito, ihl, ihr, zero_add,
      int32_int32]
    cases he : encontrarSuspeito ht (some k) with
    | none => simp only [int32_add_int32, int32_add_int32_dir]
    | some s =>
      by_cases hs : strcmp s nome = 0
      · simp only [hs, if_true, int32_add_int32, int32_add_int32_dir]
      · simp only [hs, if_false, int32_add_int32, int32_add_int32_dir]

/-- The tree left by `n + 1` insertions of one text into the empty tree, for
`n + 1` up to `INT_MAX`: one node whose counter is `n + 1`. -/
theorem inserirTodas_replicate {t : CStr} (hne : t ≠ []) (hlen : t.length < MAX_NAME) (n : Nat)
    (hn : n < 2147483647) :
    inserirTodas .nil (List.replicate (n + 1) t) = .node t ((n : Int) + 1) .nil .nil := by
  induction n with
  | zero =>
    simp [inserirTodas, inserirPista_nil hne, strncpy_of_lt_MAX_NAME hlen]
  | succ m ih =>
    rw [List.replicate_succ', inserirTodas_append, ih (by omega), inserirPista_node hne,
      if_pos (strcmp_self t), int32_of_ehInt (by unfold EhInt; omega)]
    push_cast
    rfl

/-- The tree `arvoreCheia` is what `inserirPista` builds from `INT_MAX` insertions
of `A` followed by one of `B`. -/
theorem arvoreCheia_construida :
    inserirTodas .nil (List.replicate 2147483647 textoA ++ [textoB]) = arvoreCheia := by
  rw [inserirTodas_append,
    inserirTodas_replicate (by decide : textoA ≠ []) (by decide) 2147483646 (by decide)]
  decide

/-- C5 (as amended): `contadorPistasParaSuspeito` returns the sum of `contador`
over exactly the nodes whose text `encontrarSuspeito` maps to a string equal to
the name, reduced to a 32-bit `int`; it is that sum itself whenever the sum lies
in the range of `int`; it is 0 when no node maps to the name, and 0 on the empty
tree. -/
theorem contadorPistasParaSuspeito_soma (raiz : BSTNode) (ht : HashTable) (nome : CStr) :
    contadorPistasParaSuspeito32 raiz ht nome =
        int32 ((raiz.emOrdem.filter
          (fun n => encontrarSuspeito ht (some n.1) = some nome)).map (fun n => n.2)).sum ∧
      (EhInt ((raiz.emOrdem.filter
          (fun n => encontrarSuspeito ht (some n.1) = some nome)).map (fun n => n.2)).sum →
        contadorPistasParaSuspeito32 raiz ht nome =
          ((raiz.emOrdem.filter
            (fun n => encontrarSuspeito ht (some n.1) = some nome)).map (fun n => n.2)).sum) ∧
      ((∀ n ∈ raiz.emOrdem, encontrarSuspeito ht (some n.1) ≠ some nome) →
        contadorPistasParaSuspeito32 raiz ht nome = 0) ∧
      contadorPistasParaSuspeito32 .nil ht nome = 0 := by
  refine ⟨?_, fun hr => ?_, fun hno => ?_, rfl⟩
  · rw [contadorPistasParaSuspeito32_eq, contadorPistasParaSuspeito_eq_sum]
  · rw [contadorPistasParaSuspeito32_eq, contadorPistasParaSuspeito_eq_sum, int32_of_ehInt hr]
  · rw [contadorPistasParaSuspeito32_eq, contadorPistasParaSuspeito_eq_sum,
      List.filter_eq_nil_iff.2]
    · rfl
    · intro n hn
      simpa using hno n hn

/-- Witness for C5: on the tree holding `A` twice and `B` once, both mapped to
`Suspect1`, the sum 3 is in the range of `int` and is the count; on the one-node
tree holding `A`, no node maps to `A` as a suspect, and the count for `A` is 0. -/
theorem contadorPistasParaSuspeito_soma_witness :
    contadorPistasParaSuspeito32 (inserirTodas .nil [textoA, textoB, textoA]) tabelaAB suspeito1 =
        (((inserirTodas .nil [textoA, textoB, textoA]).emOrdem.filter
          (fun n => encontrarSuspeito tabelaAB (some n.1) = some suspeito1)).map
            (fun n => n.2)).sum ∧
      contadorPistasParaSuspeito32 (.node textoA 1 .nil .nil) tabelaA textoA = 0 :=
  ⟨(contadorPistasParaSuspeito_soma (inserirTodas .nil [textoA, textoB, textoA]) tabelaAB
      suspeito1).2.1 (by decide),
    (contadorPistasParaSuspeito_soma (.node textoA 1 .nil .nil) tabelaA textoA).2.2.1
      (by decide)⟩

/-- C5 fails as stated: on the tree built by `INT_MAX` insertions of `A` and one
of `B`, both mapped to `Suspect1`, the counters add up to 2147483648 and
`contadorPistasParaSuspeito` returns -2147483648. -/
theorem contadorPistasParaSuspeito_soma_falha :
    inserirTodas .nil (List.replicate 2147483647 textoA ++ [textoB]) = arvoreCheia ∧
      ((arvoreCheia.emOrdem.filter
        (fun n => encontrarSuspeito tabelaAB (some n.1) = some suspeito1)).map
          (fun n => n.2)).sum = 2147483648 ∧
      contadorPistasParaSuspeito32 arvoreCheia tabelaAB suspeito1 = -2147483648 ∧
      contadorPistasParaSuspeito32 arvoreCheia tabelaAB suspeito1 ≠
        ((arvoreCheia.emOrdem.filter
          (fun n => encontrarSuspeito tabelaAB (some n.1) = some suspeito1)).map
            (fun n => n.2)).sum := by
  refine ⟨arvoreCheia_construida, ?_, ?_, ?_⟩ <;> decide

/-- C6 (as amended): with `a` the accusation string (the line read, newline
removed), the outcome of `verificarSuspeitoFinal` is `nenhumaAcusacao` when `a`
is empty, whatever the clue tree and the table; otherwise it is `acusacaoValida`
exactly when the value returned by `contadorPistasParaSuspeito` for `a` is at
least 2 and `acusacaoFraca` exactly when that value is below 2, and it is always
one of the two; when no `contador` is negative and the matching counters add up
to at most `INT_MAX`, `acusacaoFraca` is exactly the case of a count of 0 or 1. -/
theorem verificarSuspeitoFinal_decisao (pistas : BSTNode) (ht : HashTable) (buffer : CStr) :
    (removerNewline buffer = [] →
        ∀ arvore tabela, verificarSuspeitoFinal arvore tabela (some buffer) = .nenhumaAcusacao) ∧
      (removerNewline buffer ≠ [] →
        (verificarSuspeitoFinal pistas ht (some buffer) =
            .acusacaoValida (contadorPistasParaSuspeito32 pistas ht (removerNewline buffer)) ↔
          2 ≤ contadorPistasParaSuspeito32 pistas ht (removerNewline buffer)) ∧
        (verificarSuspeitoFinal pistas ht (some buffer) =
            .acusacaoFraca (contadorPistasParaSuspeito32 pistas ht (removerNewline buffer)) ↔
          contadorPistasParaSuspeito32 pistas ht (removerNewline buffer) < 2) ∧
        (verificarSuspeitoFinal pistas ht (some buffer) =
            .acusacaoValida (contadorPistasParaSuspeito32 pistas ht (removerNewline buffer)) ∨
          verificarSuspeitoFinal pistas ht (some buffer) =
            .acusacaoFraca (contadorPistasParaSuspeito32 pistas ht (removerNewline buffer))) ∧
        ((∀ n ∈ pistas.emOrdem, 0 ≤ n.2) →
          ((pistas.emOrdem.filter
            (fun n => encontrarSuspeito ht (some n.1) = some (removerNewline buffer))).map
              (fun n => n.2)).sum ≤ 2147483647 →
          (verificarSuspeitoFinal pistas ht (some buffer) =
              .acusacaoFraca (contadorPistasParaSuspeito32 pistas ht (removerNewline buffer)) ↔
            (contadorPistasParaSuspeito32 pistas ht (removerNewline buffer) = 0 ∨
              contadorPistasParaSuspeito32 pistas ht (removerNewline buffer) = 1)))) := by
  constructor
  · intro ha arvore tabela
    simp [verificarSuspeitoFinal, ha]
  · intro ha
    have hfraca : verificarSuspeitoFinal pistas ht (some buffer) =
          .acusacaoFraca (contadorPistasParaSuspeito32 pistas ht (removerNewline buffer)) ↔
        contadorPistasParaSuspeito32 pistas ht (removerNewline buffer) < 2 := by
      simp only [verificarSuspeitoFinal, ha, if_false]
      by_cases h2 : contadorPistasParaSuspeito32 pistas ht (removerNewline buffer) ≥ 2
      · rw [if_pos h2]
        constructor
        · intro h
          exact absurd h (by simp)
        · intro h
          omega
      · rw [if_neg h2]
        constructor
        · intro _
          omega
        · intro _
          rfl
    refine ⟨?_, hfraca, ?_, ?_⟩
    · simp only [verificarSuspeitoFinal, ha, if_false]
      by_cases h2 : contadorPistasParaSuspeito32 pistas ht (removerNewline buffer) ≥ 2
      · rw [if_pos h2]
        simpa using h2
      · rw [if_neg h2]
        constructor
        · intro h
          exact absurd h (by simp)
        · intro h
          exact absurd h h2
    · simp only [verificarSuspeitoFinal, ha, if_false]
      by_cases h2 : contadorPistasParaSuspeito32 pistas ht (removerNewline buffer) ≥ 2
      · rw [if_pos h2]
        exact Or.inl rfl
      · rw [if_neg h2]
        exact Or.inr rfl
    · intro hpos hmax
      rw [hfraca]
      have h0 : 0 ≤ ((pistas.emOrdem.filter
          (fun n => encontrarSuspeito ht (some n.1) = some (removerNewline buffer))).map
            (fun n => n.2)).sum := by
        apply List.sum_nonneg
        intro x hx
        obtain ⟨n, hn, rfl⟩ := List.mem_map.1 hx
        exact hpos n (List.mem_filter.1 hn).1
      rw [contadorPistasParaSuspeito32_eq, contadorPistasParaSuspeito_eq_sum,
        int32_of_ehInt (by unfold EhInt; omega)]
      omega

/-- Witness for C6: the line holding only a newline is the empty accusation;
accusing `Suspect1` on the tree that holds `A` twice is judged `acusacaoValida`;
and on the tree that holds `A` once, where no counter is negative and the sum is
1, a weak accusation is the same as a count of 0 or 1. -/
theorem verificarSuspeitoFinal_decisao_witness :
    verificarSuspeitoFinal .nil tabelaA (some (cstr [10])) = .nenhumaAcusacao ∧
      verificarSuspeitoFinal (inserirTodas .nil [textoA, textoA]) tabelaA (some suspeito1) =
        .acusacaoValida
          (contadorPistasParaSuspeito32 (inserirTodas .nil [textoA, textoA]) tabelaA
            (removerNewline suspeito1)) ∧
      (verificarSuspeitoFinal (inserirTodas .nil [textoA]) tabelaA (some suspeito1) =
          .acusacaoFraca
            (contadorPistasParaSuspeito32 (inserirTodas .nil [textoA]) tabelaA
              (removerNewline suspeito1)) ↔
        (contadorPistasParaSuspeito32 (inserirTodas .nil [textoA]) tabelaA
            (removerNewline suspeito1) = 0 ∨
          contadorPistasParaSuspeito32 (inserirTodas .nil [textoA]) tabelaA
            (removerNewline suspeito1) = 1)) :=
  ⟨(verificarSuspeitoFinal_decisao .nil tabelaA (cstr [10])).1 (by decide) .nil tabelaA,
    ((verificarSuspeitoFinal_decisao (inserirTodas .nil [textoA, textoA]) tabelaA
      suspeito1).2 (by decide)).1.2 (by decide),
    ((verificarSuspeitoFinal_decisao (inserirTodas .nil [textoA]) tabelaA
      suspeito1).2 (by decide)).2.2.2 (by decide) (by decide)⟩

/-- C6 fails as stated: on the tree built by `INT_MAX` insertions of `A` and one
of `B`, both mapped to `Suspect1`, the count returned for `Suspect1` is
-2147483648, neither 0 nor 1, and the accusation is judged `acusacaoFraca`. -/
theorem verificarSuspeitoFinal_decisao_falha :
    inserirTodas .nil (List.replicate 2147483647 textoA ++ [textoB]) = arvoreCheia ∧
      verificarSuspeitoFinal arvoreCheia tabelaAB (some suspeito1) =
        .acusacaoFraca (-2147483648) ∧
      contadorPistasParaSuspeito32 arvoreCheia tabelaAB (removerNewline suspeito1) =
        -2147483648 ∧
      ¬ (contadorPistasParaSuspeito32 arvoreCheia tabelaAB (removerNewline suspeito1) = 0 ∨
        contadorPistasParaSuspeito32 arvoreCheia tabelaAB (removerNewline suspeito1) = 1) := by
  refine ⟨arvoreCheia_construida, ?_, ?_, ?_⟩ <;> decide

/-! ## Navigator: the duplicate-clue scenario -/

set_option maxRecDepth 8000 in
theorem cenario_execucao :
    explorarSalas (some hall) .nil (pilhaDe hall) [some tokE, some tokE, some tokS] =
      .fim (.node textoA 1 .nil .nil) := by
  rfl

/-- C7 (as amended): on the map Hall -> (Sala, Cozinha), Sala -> (Biblioteca,
Jardim), with the clue `A` in Hall and in Biblioteca and `A` mapped to
`Suspect1`, the walk Hall, left, left, leave returns a clue tree with the one
node `A` whose `contador` is 1; `contadorPistasParaSuspeito` for `Suspect1`
is 1 and the accusation is judged `acusacaoFraca`. -/
theorem cenario_pista_duplicada :
    explorarSalas (some hall) .nil (pilhaDe hall) [some tokE, some tokE, some tokS] =
        .fim (.node textoA 1 .nil .nil) ∧
      (BSTNode.node textoA 1 .nil .nil).emOrdem = [(textoA, 1)] ∧
      contadorPistasParaSuspeito (.node textoA 1 .nil .nil) tabelaA suspeito1 = 1 ∧
      verificarSuspeitoFinal (.node textoA 1 .nil .nil) tabelaA (some suspeito1) =
        .acusacaoFraca 1 :=
  ⟨cenario_execucao, by decide, by decide, by decide⟩

/-- C7 fails as stated: the walk does not return a clue tree whose node `A` has
`contador` 2, for which the count for `Suspect1` would be 2 and the accusation
`acusacaoValida`. -/
theorem cenario_pista_duplicada_falha :
    ¬ ∃ pistas,
      explorarSalas (some hall) .nil (pilhaDe hall) [some tokE, some tokE, some tokS] =
          .fim pistas ∧
        pistas.emOrdem = [(textoA, 2)] ∧
        contadorPistasParaSuspeito pistas tabelaA suspeito1 = 2 ∧
        verificarSuspeitoFinal pistas tabelaA (some suspeito1) = .acusacaoValida 2 := by
  rintro ⟨pistas, h, hem, _, _⟩
  rw [cenario_execucao] at h
  injection h with h
  subst h
  revert hem
  decide

/-! ## Navigator: the loop invariant -/

theorem coletar_atual (e : Estado) : (coletar e).atual = e.atual := by
  unfold coletar
  split
  · split <;> rfl
  · rfl

theorem coletar_pilha (e : Estado) : (coletar e).pilha = e.pilha := by
  unfold coletar
  split
  · split <;> rfl
  · rfl

theorem coletar_topo (e : Estado) : (coletar e).topo = e.topo := by
  unfold coletar
  split
  · split <;> rfl
  · rfl

theorem coletar_raizPistas (e : Estado) :
    (coletar e).raizPistas =
      if e.atual.pista ≠ [] ∧ buscarPistaNode e.raizPistas (some e.atual.pista) = .nil then
        inserirPista e.raizPistas (some e.atual.pista)
      else e.raizPistas := by
  unfold coletar
  by_cases hp : e.atual.pista ≠ []
  · rw [if_pos hp]
    cases hb : buscarPistaNode e.raizPistas (some e.atual.pista) with
    | nil => simp [hp]
    | node k n l r => simp
  · rw [if_neg hp]
    simp [hp]

theorem coletar_presente {e : Estado}
    (h : buscarPistaNode e.raizPistas (some e.atual.pista) ≠ .nil) : coletar e = e := by
  unfold coletar
  split
  · split
    · rename_i hb
      exact absurd hb h
    · rfl
  · rfl

theorem coletar_sem_pista {e : Estado} (h : e.atual.pista = []) : coletar e = e := by
  unfold coletar
  simp [h]

theorem ordenada_coletar (e : Estado) (ho : e.raizPistas.Ordenada) :
    (coletar e).raizPistas.Ordenada := by
  rw [coletar_raizPistas]
  split
  · exact ordenada_inserirPista ho _
  · exact ho

theorem valido_coletar {e : Estado} (hv : e.Valido) : (coletar e).Valido := by
  obtain ⟨h1, h2, h3, h4⟩ := hv
  exact ⟨by rw [coletar_pilha]; exact h1, by rw [coletar_topo]; exact h2,
    by rw [coletar_topo]; exact h3, ordenada_coletar e h4⟩

theorem mem_textos_coletar (e : Estado) {k : CStr} (h : k ∈ e.raizPistas.textos) :
    k ∈ (coletar e).raizPistas.textos := by
  rw [coletar_raizPistas]
  split
  · rename_i hc
    exact (mem_textos_inserirPista hc.1 k).2 (Or.inl h)
  · exact h

theorem pista_mem_textos_coletar {e : Estado} (ho : e.raizPistas.Ordenada)
    (hne : e.atual.pista ≠ []) (hlen : e.atual.pista.length < MAX_NAME) :
    e.atual.pista ∈ (coletar e).raizPistas.textos := by
  rw [coletar_raizPistas]
  by_cases hb : buscarPistaNode e.raizPistas (some e.atual.pista) = .nil
  · rw [if_pos ⟨hne, hb⟩]
    exact (mem_textos_inserirPista hne _).2 (Or.inr ⟨hb, (strncpy_of_lt_MAX_NAME hlen).symm⟩)
  · rw [if_neg (fun h => hb h.2)]
    exact (buscarPistaNode_ne_nil_iff ho _).1 hb

theorem escreverPilha_some {pilha : List Sala} {i : Int} (s : Sala)
    (h0 : 0 ≤ i) (h1 : i < (pilha.length : Int)) :
    escreverPilha pilha i s = some (pilha.set i.toNat s) := by
  unfold escreverPilha
  rw [if_pos]
  exact ⟨h0, by omega⟩

theorem lerPilha_isSome (pilha : List Sala) (i : Int)
    (h0 : 0 ≤ i) (h1 : i < (pilha.length : Int)) : ∃ s, lerPilha pilha i = some s := by
  unfold lerPilha
  rw [if_pos h0]
  have : i.toNat < pilha.length := by omega
  exact ⟨pilha.get ⟨i.toNat, this⟩, List.get?_eq_get this⟩

/-- The token dispatch keeps the invariant and never leaves the array. -/
theorem valido_mover {e : Estado} (hv : e.Valido) (entrada : CStr) :
    mover e entrada ≠ .foraDosLimites ∧ ∀ e1, mover e entrada = .segue e1 → e1.Valido := by
  obtain ⟨h1, h2, h3, h4⟩ := hv
  have hlen : (e.pilha.length : Int) = (STACK_MAX : Int) := by rw [h1]
  unfold mover
  split
  · split
    · split
      · exact ⟨by simp, fun e1 h => by injection h with h; subst h; exact ⟨h1, h2, h3, h4⟩⟩
      · rename_i hcap
        rw [escreverPilha_some e.atual (by omega) (by omega)]
        refine ⟨by simp, fun e1 h => ?_⟩
        injection h with h
        subst h
        exact ⟨by simp [h1], by simp only; omega, by simp only; omega, h4⟩
    · exact ⟨by simp, fun e1 h => by injection h with h; subst h; exact ⟨h1, h2, h3, h4⟩⟩
  · split
    · split
      · split
        · exact ⟨by simp, fun e1 h => by injection h with h; subst h; exact ⟨h1, h2, h3, h4⟩⟩
        · rename_i hcap
          rw [escreverPilha_some e.atual (by omega) (by omega)]
          refine ⟨by simp, fun e1 h => ?_⟩
          injection h with h
          subst h
          exact ⟨by simp [h1], by simp only; omega, by simp only; omega, h4⟩
      · exact ⟨by simp, fun e1 h => by injection h with h; subst h; exact ⟨h1, h2, h3, h4⟩⟩
    · split
      · split
        · rename_i htopo
          obtain ⟨s, hs⟩ := lerPilha_isSome e.pilha e.topo (by omega) (by omega)
          rw [hs]
          refine ⟨by simp, fun e1 h => ?_⟩
          injection h with h
          subst h
          exact ⟨h1, by simp only; omega, by simp only; omega, h4⟩
        · exact ⟨by simp, fun e1 h => by injection h with h; subst h; exact ⟨h1, h2, h3, h4⟩⟩
      · split
        · exact ⟨by simp, fun e1 h => by simp at h⟩
        · exact ⟨by simp, fun e1 h => by injection h with h; subst h; exact ⟨h1, h2, h3, h4⟩⟩

theorem valido_iterar {e : Estado} (hv : e.Valido) (entrada : Option CStr) :
    iterar e entrada ≠ .foraDosLimites ∧ ∀ e1, iterar e entrada = .segue e1 → e1.Valido := by
  cases entrada with
  | none =>
    refine ⟨by simp [iterar], fun e1 h => ?_⟩
    simp only [iterar] at h
    injection h with h
    subst h
    exact valido_coletar hv
  | some tok => exact valido_mover (valido_coletar hv) tok

theorem valido_laco {e : Estado} (hv : e.Valido) (entradas : List (Option CStr)) :
    laco e entradas ≠ .foraDosLimites ∧ ∀ e1, laco e entradas = .segue e1 → e1.Valido := by
  induction entradas generalizing e with
  | nil =>
    refine ⟨by simp [laco], fun e1 h => ?_⟩
    simp only [laco] at h
    injection h with h
    subst h
    exact hv
  | cons entrada resto ih =>
    have hi := valido_iterar hv entrada
    simp only [laco]
    cases hit : iterar e entrada with
    | segue e1 => exact ih (hi.2 e1 hit)
    | fim pistas => exact ⟨by simp, fun e1 h => by simp at h⟩
    | foraDosLimites => exact absurd hit hi.1

theorem valido_estadoInicial (raiz : Sala) {pilha0 : List Sala} (h : pilha0.length = STACK_MAX) :
    (estadoInicial raiz .nil pilha0).Valido :=
  ⟨h, by simp [estadoInicial], by simp [estadoInicial, STACK_MAX], ordenada_nil⟩

theorem valido_of_alcancavel {raiz : Sala} {pilha0 : List Sala} {e : Estado}
    (h : Alcancavel raiz pilha0 e) : e.Valido := by
  obtain ⟨hl, entradas, he⟩ := h
  exact (valido_laco (valido_estadoInicial raiz hl) entradas).2 e he

/-! ## Navigator: claims -/

/-- C8: on entry into a room whose non-empty clue text (which fits its buffer)
`buscarPistaNode` finds in the clue tree, the state and so the clue tree are
left unchanged; when the search does not find it, the in-order records of the
clue tree gain exactly one record, holding that text with `contador` 1, and
keep every other record. -/
theorem coletar_efeito (e : Estado) (hne : e.atual.pista ≠ [])
    (hlen : e.atual.pista.length < MAX_NAME) :
    (buscarPistaNode e.raizPistas (some e.atual.pista) ≠ .nil → coletar e = e) ∧
      (buscarPistaNode e.raizPistas (some e.atual.pista) = .nil →
        ∃ l1 l2, e.raizPistas.emOrdem = l1 ++ l2 ∧
          (coletar e).raizPistas.emOrdem = l1 ++ (e.atual.pista, 1) :: l2) := by
  refine ⟨coletar_presente, fun hb => ?_⟩
  obtain ⟨l1, l2, e1, e2⟩ := inserirPista_ausente hne hb
  rw [strncpy_of_lt_MAX_NAME hlen] at e2
  refine ⟨l1, l2, e1, ?_⟩
  rw [coletar_raizPistas, if_pos ⟨hne, hb⟩]
  exact e2

/-- Witness for C8: entering `Hall` with the clue `A` already collected changes
nothing. -/
theorem coletar_efeito_witness :
    coletar (estadoInicial hall (.node textoA 1 .nil .nil) (pilhaDe hall)) =
      estadoInicial hall (.node textoA 1 .nil .nil) (pilhaDe hall) :=
  (coletar_efeito (estadoInicial hall (.node textoA 1 .nil .nil) (pilhaDe hall))
    (by decide) (by decide)).1 (by decide)

theorem take_set_self (l : List Sala) (i : Nat) (s : Sala) : (l.set i s).take i = l.take i := by
  induction l generalizing i with
  | nil => simp
  | cons x xs ih =>
    cases i with
    | zero => simp
    | succ j => simp [ih]

theorem lerPilha_set {pilha : List Sala} {i : Int} (s : Sala)
    (h0 : 0 ≤ i) (h1 : i < (pilha.length : Int)) :
    lerPilha (pilha.set i.toNat s) i = some s := by
  unfold lerPilha
  rw [if_pos h0]
  have : i.toNat < pilha.length := by omega
  rw [List.get?_eq_getElem?, List.getElem?_set_self this]

theorem mover_esquerda (e : Estado) {filho : Sala} (hesq : e.atual.esquerda = some filho)
    (h0 : -1 ≤ e.topo) (hcap : e.topo + 1 < (STACK_MAX : Int))
    (hl : e.pilha.length = STACK_MAX) :
    mover e tokE =
      .segue ⟨filho, e.pilha.set (e.topo + 1).toNat e.atual, e.topo + 1, e.raizPistas⟩ := by
  have hlen : (e.pilha.length : Int) = (STACK_MAX : Int) := by rw [hl]
  unfold mover
  rw [if_pos (by decide), hesq]
  simp only
  rw [if_neg (by omega), escreverPilha_some _ (by omega) (by omega)]

theorem mover_direita (e : Estado) {filho : Sala} (hdir : e.atual.direita = some filho)
    (h0 : -1 ≤ e.topo) (hcap : e.topo + 1 < (STACK_MAX : Int))
    (hl : e.pilha.length = STACK_MAX) :
    mover e tokD =
      .segue ⟨filho, e.pilha.set (e.topo + 1).toNat e.atual, e.topo + 1, e.raizPistas⟩ := by
  have hlen : (e.pilha.length : Int) = (STACK_MAX : Int) := by rw [hl]
  unfold mover
  rw [if_neg (by decide), if_pos (by decide), hdir]
  simp only
  rw [if_neg (by omega), escreverPilha_some _ (by omega) (by omega)]

theorem mover_voltar (e : Estado) (sala : Sala) (h0 : 0 ≤ e.topo)
    (hler : lerPilha e.pilha e.topo = some sala) :
    mover e tokB = .segue ⟨sala, e.pilha, e.topo - 1, e.raizPistas⟩ := by
  unfold mover
  rw [if_neg (by decide), if_neg (by decide), if_pos (by decide), if_pos h0, hler]

/-- C9: in every reachable state in which the current room `R` (whose clue text
fits its buffer) has a left child and the history is below capacity, the token
`e` followed by the token `b` makes `R` the current room again with `topo` and
the history as they were before the move, and the undo step together with the
re-entry into `R` leaves the clue tree as it was when `b` was read. -/
theorem desfazer_apos_esquerda (raiz : Sala) (pilha0 : List Sala) (e : Estado) (filho : Sala)
    (hreach : Alcancavel raiz pilha0 e) (hesq : e.atual.esquerda = some filho)
    (hcap : e.topo + 1 < (STACK_MAX : Int)) (hlen : e.atual.pista.length < MAX_NAME) :
    ∃ e1 e2, iterar e (some tokE) = .segue e1 ∧ iterar e1 (some tokB) = .segue e2 ∧
      e1.atual = filho ∧ e2.atual = e.atual ∧ e2.topo = e.topo ∧
      e2.historico = e.historico ∧
      e2.raizPistas = (coletar e1).raizPistas ∧
      (coletar e2).raizPistas = (coletar e1).raizPistas := by
  have hv := valido_of_alcancavel hreach
  obtain ⟨hl, ht0, ht1, ho⟩ := valido_coletar hv
  rw [coletar_pilha] at hl
  rw [coletar_topo] at ht0 ht1
  have hlenI : (e.pilha.length : Int) = (STACK_MAX : Int) := by rw [hl]
  -- the move to the left child
  have hm1 := mover_esquerda (coletar e) (by rw [coletar_atual]; exact hesq)
    (by rw [coletar_topo]; exact ht0) (by rw [coletar_topo]; exact hcap)
    (by rw [coletar_pilha]; exact hl)
  rw [coletar_pilha, coletar_topo, coletar_atual] at hm1
  -- the undo
  have hler : lerPilha (e.pilha.set (e.topo + 1).toNat e.atual) (e.topo + 1) = some e.atual :=
    lerPilha_set e.atual (by omega) (by omega)
  have hm2 := mover_voltar
    (coletar ⟨filho, e.pilha.set (e.topo + 1).toNat e.atual, e.topo + 1,
      (coletar e).raizPistas⟩)
    e.atual (by rw [coletar_topo]; simp only; omega)
    (by rw [coletar_pilha, coletar_topo]; exact hler)
  rw [coletar_pilha, coletar_topo] at hm2
  refine ⟨_, _, hm1, hm2, rfl, rfl, by simp, ?_, rfl, ?_⟩
  · simp only [Estado.historico, add_sub_cancel_right]
    exact take_set_self _ _ _
  · -- the re-entry into the room finds its clue in the tree
    by_cases hp : e.atual.pista = []
    · rw [coletar_sem_pista (by simpa using hp)]
    · have hmem : e.atual.pista ∈ (coletar e).raizPistas.textos :=
        pista_mem_textos_coletar hv.2.2.2 hp hlen
      have hmem1 := mem_textos_coletar
        (⟨filho, e.pilha.set (e.topo + 1).toNat e.atual, e.topo + 1,
          (coletar e).raizPistas⟩) hmem
      have ho1 := ordenada_coletar
        (⟨filho, e.pilha.set (e.topo + 1).toNat e.atual, e.topo + 1,
          (coletar e).raizPistas⟩) ho
      rw [coletar_presente]
      exact (buscarPistaNode_ne_nil_iff ho1 _).2 hmem1

theorem alcancavel_estadoInicial (raiz : Sala) {pilha0 : List Sala}
    (h : pilha0.length = STACK_MAX) : Alcancavel raiz pilha0 (estadoInicial raiz .nil pilha0) :=
  ⟨h, [], rfl⟩

theorem length_pilhaDe (s : Sala) : (pilhaDe s).length = STACK_MAX := by
  simp [pilhaDe]

/-- Witness for C9: from the start in `Hall`, which carries a clue, `e` then `b`
comes back to `Hall` with `topo` and the history as before. -/
theorem desfazer_apos_esquerda_witness :
    ∃ e1 e2, iterar (estadoInicial hall .nil (pilhaDe hall)) (some tokE) = .segue e1 ∧
      iterar e1 (some tokB) = .segue e2 ∧
      e1.atual = salaEstar ∧ e2.atual = (estadoInicial hall .nil (pilhaDe hall)).atual ∧
      e2.topo = (estadoInicial hall .nil (pilhaDe hall)).topo ∧
      e2.historico = (estadoInicial hall .nil (pilhaDe hall)).historico ∧
      e2.raizPistas = (coletar e1).raizPistas ∧
      (coletar e2).raizPistas = (coletar e1).raizPistas :=
  desfazer_apos_esquerda hall (pilhaDe hall) (estadoInicial hall .nil (pilhaDe hall)) salaEstar
    (alcancavel_estadoInicial hall (length_pilhaDe hall)) rfl (by decide) (by decide)

/-- C10: in every reachable state the number of rooms in the undo history,
`topo + 1`, is between 0 and `STACK_MAX`, the history is that many cells of an
array that keeps its `STACK_MAX` cells, and no further input makes the loop
read or write `pilha` outside the array. -/
theorem pilha_dentro_dos_limites (raiz : Sala) (pilha0 : List Sala) (e : Estado)
    (h : Alcancavel raiz pilha0 e) :
    0 ≤ e.topo + 1 ∧ e.topo + 1 ≤ (STACK_MAX : Int) ∧ e.pilha.length = STACK_MAX ∧
      e.historico.length = (e.topo + 1).toNat ∧
      (∀ entrada, iterar e entrada ≠ .foraDosLimites) ∧
      (∀ entradas, laco e entradas ≠ .foraDosLimites) := by
  have hv := valido_of_alcancavel h
  obtain ⟨h1, h2, h3, _⟩ := id hv
  refine ⟨by omega, by omega, h1, ?_, fun entrada => (valido_iterar hv entrada).1,
    fun entradas => (valido_laco hv entradas).1⟩
  simp only [Estado.historico, List.length_take, h1]
  omega

set_option maxRecDepth 8000 in
theorem alcancavel_estadoNaBiblioteca : Alcancavel hall (pilhaDe hall) estadoNaBiblioteca :=
  ⟨length_pilhaDe hall, [some tokE, some tokE], by rfl⟩

/-- Witness for C10: the state reached from `Hall` by the tokens `e`, `e`, with
two rooms in the history. -/
theorem pilha_dentro_dos_limites_witness :
    0 ≤ estadoNaBiblioteca.topo + 1 ∧ estadoNaBiblioteca.topo + 1 ≤ (STACK_MAX : Int) ∧
      estadoNaBiblioteca.pilha.length = STACK_MAX ∧
      estadoNaBiblioteca.historico.length = (estadoNaBiblioteca.topo + 1).toNat ∧
      (∀ entrada, iterar estadoNaBiblioteca entrada ≠ .foraDosLimites) ∧
      (∀ entradas, laco estadoNaBiblioteca entradas ≠ .foraDosLimites) :=
  pilha_dentro_dos_limites hall (pilhaDe hall) estadoNaBiblioteca alcancavel_estadoNaBiblioteca

/-! ## Navigator: refused and rejected actions -/

theorem mover_na_capacidade (e : Estado) {tok : CStr} (hcheio : e.topo + 1 = (STACK_MAX : Int))
    (htok : tok = cstr [101] ∨ tok = cstr [69] ∨ tok = cstr [100] ∨ tok = cstr [68]) :
    mover e tok = .segue e := by
  unfold mover
  rcases htok with h | h | h | h <;> subst h
  · rw [if_pos (by decide)]
    cases e.atual.esquerda with
    | none => rfl
    | some filho => simp only; rw [if_pos (by omega)]
  · rw [if_pos (by decide)]
    cases e.atual.esquerda with
    | none => rfl
    | some filho => simp only; rw [if_pos (by omega)]
  · rw [if_neg (by decide), if_pos (by decide)]
    cases e.atual.direita with
    | none => rfl
    | some filho => simp only; rw [if_pos (by omega)]
  · rw [if_neg (by decide), if_pos (by decide)]
    cases e.atual.direita with
    | none => rfl
    | some filho => simp only; rw [if_pos (by omega)]

theorem coletar_historico (e : Estado) : (coletar e).historico = e.historico := by
  simp only [Estado.historico, coletar_pilha, coletar_topo]

/-- C11: when the undo history holds `STACK_MAX` rooms (`topo + 1 = STACK_MAX`),
a token `e`, `E`, `d` or `D` is refused whether or not the child exists: the
loop goes on in the state it had when the token was read, with the current
room, `topo`, the array and the history as they were. -/
theorem movimento_recusado_na_capacidade (e : Estado) (tok : CStr)
    (hcheio : e.topo + 1 = (STACK_MAX : Int))
    (htok : tok = cstr [101] ∨ tok = cstr [69] ∨ tok = cstr [100] ∨ tok = cstr [68]) :
    iterar e (some tok) = .segue (coletar e) ∧ (coletar e).atual = e.atual ∧
      (coletar e).topo = e.topo ∧ (coletar e).pilha = e.pilha ∧
      (coletar e).historico = e.historico :=
  ⟨mover_na_capacidade (coletar e) (by rw [coletar_topo]; exact hcheio) htok,
    coletar_atual e, coletar_topo e, coletar_pilha e, coletar_historico e⟩

set_option maxRecDepth 100000 in
theorem alcancavel_estadoCheio :
    Alcancavel (corredor 129) (pilhaDe (corredor 129)) estadoCheio :=
  ⟨length_pilhaDe _, List.replicate 128 (some tokE), by rfl⟩

set_option maxRecDepth 100000 in
/-- Witness for C11: after 128 tokens `e` down a corridor of 130 rooms the
history is full, the current room still has a left child, and one more `e`
leaves the room and the history as they are. -/
theorem movimento_recusado_na_capacidade_witness :
    Alcancavel (corredor 129) (pilhaDe (corredor 129)) estadoCheio ∧
      estadoCheio.atual.esquerda = some (corredor 0) ∧
      estadoCheio.historico.length = STACK_MAX ∧
      iterar estadoCheio (some tokE) = .segue (coletar estadoCheio) ∧
      (coletar estadoCheio).atual = estadoCheio.atual ∧
      (coletar estadoCheio).historico = estadoCheio.historico :=
  ⟨alcancavel_estadoCheio, rfl, by decide,
    (movimento_recusado_na_capacidade estadoCheio tokE (by decide) (Or.inl rfl)).1,
    (movimento_recusado_na_capacidade estadoCheio tokE (by decide) (Or.inl rfl)).2.1,
    (movimento_recusado_na_capacidade estadoCheio tokE (by decide) (Or.inl rfl)).2.2.2.2⟩

theorem mover_rejeitada (e : Estado) {tok : CStr} (h : Rejeitada e (some tok)) :
    mover e tok = .segue e := by
  unfold mover
  rcases h with ⟨h | h, hn⟩ | ⟨h | h, hn⟩ | ⟨h | h, hn⟩ | h
  · subst h
    rw [if_pos (by decide), hn]
  · subst h
    rw [if_pos (by decide), hn]
  · subst h
    rw [if_neg (by decide), if_pos (by decide), hn]
  · subst h
    rw [if_neg (by decide), if_pos (by decide), hn]
  · subst h
    rw [if_neg (by decide), if_neg (by decide), if_pos (by decide), if_neg (by omega)]
  · subst h
    rw [if_neg (by decide), if_neg (by decide), if_pos (by decide), if_neg (by omega)]
  · simp only [List.mem_cons, List.mem_singleton, not_or, List.not_mem_nil, or_false] at h
    obtain ⟨h1, h2, h3, h4, h5, h6, h7, h8⟩ := h
    simp only [strcmp_eq_zero_iff]
    rw [if_neg (by tauto), if_neg (by tauto), if_neg (by tauto), if_neg (by tauto)]

theorem coletar_coletar {e : Estado} (ho : e.raizPistas.Ordenada)
    (hlen : e.atual.pista.length < MAX_NAME) : coletar (coletar e) = coletar e := by
  by_cases hp : e.atual.pista = []
  · rw [coletar_sem_pista hp, coletar_sem_pista hp]
  · apply coletar_presente
    rw [coletar_atual]
    exact (buscarPistaNode_ne_nil_iff (ordenada_coletar e ho) _).2
      (pista_mem_textos_coletar ho hp hlen)

/-- C12: in every reachable state, with `c` the state the loop has once the
current room (whose clue text fits its buffer) is entered and the token is
read, a rejected action - a failed read, a move towards a missing child, an
undo with an empty history, a token that is none of `e E d D b B s S` - makes
the loop go on in `c` itself: current room, array, `topo`, history and clue
tree are those of `c`, and re-entering the room leaves `c` as it is. The
suspect table is not written by `explorarSalas` at all. -/
theorem acao_rejeitada_sem_efeito (raiz : Sala) (pilha0 : List Sala) (e : Estado)
    (entrada : Option CStr) (hreach : Alcancavel raiz pilha0 e)
    (hlen : e.atual.pista.length < MAX_NAME) (hrej : Rejeitada (coletar e) entrada) :
    iterar e entrada = .segue (coletar e) ∧ coletar (coletar e) = coletar e ∧
      (∀ proxima, iterar (coletar e) proxima = iterar e proxima) ∧
      (coletar e).atual = e.atual ∧ (coletar e).historico = e.historico := by
  have hv := valido_of_alcancavel hreach
  have hcc := coletar_coletar hv.2.2.2 hlen
  refine ⟨?_, hcc, ?_, coletar_atual e, coletar_historico e⟩
  · cases entrada with
    | none => rfl
    | some tok => exact mover_rejeitada (coletar e) hrej
  · intro proxima
    cases proxima with
    | none => simp only [iterar, hcc]
    | some tok => simp only [iterar, hcc]

/-- Witness for C12: at the start in `Hall` the token `b` (empty history) and
the token `x` are rejected and leave the state as it is. -/
theorem acao_rejeitada_sem_efeito_witness :
    iterar (estadoInicial hall .nil (pilhaDe hall)) (some tokB) =
        .segue (coletar (estadoInicial hall .nil (pilhaDe hall))) ∧
      iterar (estadoInicial hall .nil (pilhaDe hall)) (some (cstr [120])) =
        .segue (coletar (estadoInicial hall .nil (pilhaDe hall))) :=
  ⟨(acao_rejeitada_sem_efeito hall (pilhaDe hall) (estadoInicial hall .nil (pilhaDe hall))
      (some tokB) (alcancavel_estadoInicial hall (length_pilhaDe hall)) (by decide)
      (Or.inr (Or.inr (Or.inl ⟨Or.inl rfl, by rw [coletar_topo]; rfl⟩)))).1,
    (acao_rejeitada_sem_efeito hall (pilhaDe hall) (estadoInicial hall .nil (pilhaDe hall))
      (some (cstr [120])) (alcancavel_estadoInicial hall (length_pilhaDe hall)) (by decide)
      (Or.inr (Or.inr (Or.inr (by decide))))).1⟩

/-! ## Suspect table: enumeration of the suspects -/

theorem acumular_prefixo (nomes vs : List CStr) : ∃ extra, acumular nomes vs = nomes ++ extra := by
  induction vs generalizing nomes with
  | nil => exact ⟨[], by simp [acumular]⟩
  | cons s resto ih =>
    simp only [acumular]
    split
    · exact ih nomes
    · obtain ⟨extra, h⟩ := ih (nomes ++ [s])
      exact ⟨s :: extra, by rw [h]; simp⟩

theorem mem_acumular (nomes vs : List CStr) (x : CStr) :
    x ∈ acumular nomes vs ↔ x ∈ nomes ∨ x ∈ vs := by
  induction vs generalizing nomes with
  | nil => simp [acumular]
  | cons s resto ih =>
    simp only [acumular]
    split
    · rename_i hs
      rw [ih]
      constructor
      · rintro (h | h)
        · exact Or.inl h
        · exact Or.inr (List.mem_cons_of_mem _ h)
      · rintro (h | h)
        · exact Or.inl h
        · rcases List.mem_cons.1 h with h | h
          · exact Or.inl (h ▸ hs)
          · exact Or.inr h
    · rw [ih]
      simp only [List.mem_append, List.mem_singleton, List.mem_cons]
      tauto

theorem nodup_acumular {nomes : List CStr} (h : nomes.Nodup) (vs : List CStr) :
    (acumular nomes vs).Nodup := by
  induction vs generalizing nomes with
  | nil => simpa [acumular] using h
  | cons s resto ih =>
    simp only [acumular]
    split
    · exact ih h
    · rename_i hs
      apply ih
      rw [List.nodup_append]
      exact ⟨h, List.nodup_singleton s, by simpa using hs⟩

theorem any_strcmp_iff (nomes : List CStr) (s : CStr) :
    nomes.any (fun nome => decide (strcmp nome s = 0)) = true ↔ s ∈ nomes := by
  simp only [List.any_eq_true, decide_eq_true_eq, strcmp_eq_zero_iff]
  constructor
  · rintro ⟨x, hx, rfl⟩
    exact hx
  · intro h
    exact ⟨s, h, rfl⟩

/-- On entries whose values fit their buffer, the scan lists the first
occurrences of the values and stops at `HASH_SIZE` names. -/
theorem coletarCadeia_eq (nomes : List CStr) (es : List HashEntry)
    (hn : nomes.length < HASH_SIZE) (hes : ∀ e ∈ es, e.suspeito.length < MAX_NAME) :
    (coletarCadeia nomes es).1 =
      (acumular nomes (es.map (fun e => e.suspeito))).take HASH_SIZE := by
  induction es generalizing nomes with
  | nil =>
    simp only [coletarCadeia, List.map_nil, acumular]
    rw [List.take_of_length_le (le_of_lt hn)]
  | cons e prox ih =>
    have hp : ∀ x ∈ prox, x.suspeito.length < MAX_NAME :=
      fun x hx => hes x (List.mem_cons_of_mem _ hx)
    have he := strncpy_of_lt_MAX_NAME (hes e (List.mem_cons_self _ _))
    simp only [coletarCadeia, List.map_cons, acumular, he]
    by_cases hany : nomes.any (fun nome => decide (strcmp nome e.suspeito = 0)) = true
    · rw [if_pos hany, if_pos ((any_strcmp_iff _ _).1 hany)]
      exact ih nomes hn hp
    · rw [if_neg hany, if_neg (fun h => hany ((any_strcmp_iff _ _).2 h))]
      by_cases hfull : (nomes ++ [e.suspeito]).length ≥ HASH_SIZE
      · rw [if_pos hfull]
        obtain ⟨extra, hex⟩ := acumular_prefixo (nomes ++ [e.suspeito])
          (prox.map (fun e => e.suspeito))
        rw [hex]
        have hl : (nomes ++ [e.suspeito]).length = HASH_SIZE := by
          simp only [List.length_append, List.length_singleton] at hfull ⊢
          omega
        rw [List.take_append_of_le_length (le_of_eq hl.symm), List.take_of_length_le (le_of_eq hl)]
      · rw [if_neg hfull]
        exact ih _ (by omega) hp

theorem coletarCadeia_append (nomes : List CStr) (c1 c2 : List HashEntry) :
    coletarCadeia nomes (c1 ++ c2) =
      if (coletarCadeia nomes c1).2 then coletarCadeia nomes c1
      else coletarCadeia (coletarCadeia nomes c1).1 c2 := by
  induction c1 generalizing nomes with
  | nil => simp [coletarCadeia]
  | cons e prox ih =>
    simp only [List.cons_append, coletarCadeia]
    split
    · exact ih nomes
    · split
      · simp
      · exact ih _

theorem coletarBuckets_eq (ht : HashTable) (is : List (Fin HASH_SIZE)) (nomes : List CStr) :
    coletarBuckets ht is nomes = (coletarCadeia nomes (is.flatMap ht.buckets)).1 := by
  induction is generalizing nomes with
  | nil => simp [coletarBuckets, coletarCadeia]
  | cons i resto ih =>
    simp only [coletarBuckets, List.flatMap_cons, coletarCadeia_append]
    cases h : coletarCadeia nomes (ht.buckets i) with
    | mk nomes1 parou =>
      cases parou with
      | true => simp
      | false => simp [ih]

theorem coletarSuspeitosUnicos_eq (ht : HashTable) (hc : ht.Cabe) :
    coletarSuspeitosUnicos ht = (acumular [] ht.valores).take HASH_SIZE := by
  rw [coletarSuspeitosUnicos, coletarBuckets_eq, coletarCadeia_eq [] _ (by decide)]
  · rfl
  · intro e he
    obtain ⟨i, _, hi⟩ := List.mem_flatMap.1 he
    exact (hc i e hi).2

/-! ## Suspect table: what one insertion does to the chains -/

theorem sobrescrever_some {k s : CStr} {cadeia nova : List HashEntry}
    (h : sobrescrever k s cadeia = some nova) :
    ∃ l1 cur l2, cadeia = l1 ++ cur :: l2 ∧
      nova = l1 ++ ⟨cur.pista, strncpy s (MAX_NAME - 1)⟩ :: l2 ∧ cur.pista = k := by
  induction cadeia generalizing nova with
  | nil => simp [sobrescrever] at h
  | cons cur prox ih =>
    simp only [sobrescrever] at h
    by_cases h0 : strcmp cur.pista k = 0
    · rw [if_pos h0] at h
      injection h with h
      exact ⟨[], cur, prox, rfl, h.symm, strcmp_eq_zero h0⟩
    · rw [if_neg h0] at h
      cases hs : sobrescrever k s prox with
      | none => simp [hs] at h
      | some resto =>
        rw [hs] at h
        simp only [Option.map_some'] at h
        injection h with h
        obtain ⟨l1, c, l2, e1, e2, e3⟩ := ih hs
        exact ⟨cur :: l1, c, l2, by rw [e1]; rfl, by rw [← h, e2]; rfl, e3⟩

theorem sobrescrever_none {k s : CStr} {cadeia : List HashEntry}
    (h : sobrescrever k s cadeia = none) : k ∉ cadeia.map (fun e => e.pista) := by
  induction cadeia with
  | nil => simp
  | cons cur prox ih =>
    simp only [sobrescrever] at h
    by_cases h0 : strcmp cur.pista k = 0
    · rw [if_pos h0] at h
      exact absurd h (by simp)
    · rw [if_neg h0] at h
      have hp : sobrescrever k s prox = none := by
        cases hs : sobrescrever k s prox with
        | none => rfl
        | some r => simp [hs] at h
      simp only [List.map_cons, List.mem_cons, not_or]
      exact ⟨fun e => h0 (e ▸ strcmp_self k), ih hp⟩

theorem sobrescrever_isSome {k : CStr} (s : CStr) {cadeia : List HashEntry}
    (h : k ∈ cadeia.map (fun e => e.pista)) : ∃ nova, sobrescrever k s cadeia = some nova := by
  cases hs : sobrescrever k s cadeia with
  | none => exact absurd h (sobrescrever_none hs)
  | some nova => exact ⟨nova, rfl⟩

theorem strncpy_length_lt (a : CStr) : (strncpy a (MAX_NAME - 1)).length < MAX_NAME := by
  have := strncpy_length_le a (MAX_NAME - 1)
  simp only [MAX_NAME] at this ⊢
  omega

/-- The bucket of the key after one `inserirNaHash`, and the other buckets. -/
theorem buckets_inserirNaHash (ht : HashTable) (k s : CStr) (i : Fin HASH_SIZE) :
    (inserirNaHash ht (some k) (some s)).buckets i =
      if i = hash_djb2 k then
        match sobrescrever k s (ht.buckets (hash_djb2 k)) with
        | some cadeia => cadeia
        | none => ⟨strncpy k (MAX_NAME - 1), strncpy s (MAX_NAME - 1)⟩ ::
            ht.buckets (hash_djb2 k)
      else ht.buckets i := by
  simp only [inserirNaHash]
  cases hs : sobrescrever k s (ht.buckets (hash_djb2 k)) with
  | some cadeia =>
    by_cases hi : i = hash_djb2 k
    · subst hi
      simp
    · simp [hi, Function.update_noteq hi]
  | none =>
    by_cases hi : i = hash_djb2 k
    · subst hi
      simp
    · simp [hi, Function.update_noteq hi]

theorem cabe_inicializarHash : inicializarHash.Cabe := by
  intro i e he
  simp [inicializarHash] at he

theorem cabe_inserirNaHash {ht : HashTable} (hc : ht.Cabe) (k s : CStr) :
    (inserirNaHash ht (some k) (some s)).Cabe := by
  intro i e he
  rw [buckets_inserirNaHash] at he
  by_cases hi : i = hash_djb2 k
  · rw [if_pos hi] at he
    cases hs : sobrescrever k s (ht.buckets (hash_djb2 k)) with
    | some cadeia =>
      rw [hs] at he
      obtain ⟨l1, cur, l2, e1, e2, _⟩ := sobrescrever_some hs
      simp only [e2, List.mem_append, List.mem_cons] at he
      have hold : ∀ x ∈ l1 ++ cur :: l2, x.pista.length < MAX_NAME ∧ x.suspeito.length < MAX_NAME :=
        fun x hx => hc (hash_djb2 k) x (e1 ▸ hx)
      rcases he with h | h | h
      · exact hold e (by simp [h])
      · rw [h]
        exact ⟨(hold cur (by simp)).1, strncpy_length_lt s⟩
      · exact hold e (by simp [h])
    | none =>
      rw [hs] at he
      rcases List.mem_cons.1 he with h | h
      · rw [h]
        exact ⟨strncpy_length_lt k, strncpy_length_lt s⟩
      · exact hc _ e h
  · rw [if_neg hi] at he
    exact hc i e he

theorem inserirTodasNaHash_append (ht : HashTable) (xs : List (CStr × CStr)) (x : CStr × CStr) :
    inserirTodasNaHash ht (xs ++ [x]) =
      inserirNaHash (inserirTodasNaHash ht xs) (some x.1) (some x.2) := by
  simp [inserirTodasNaHash, List.foldl_append]

theorem cabe_inserirTodasNaHash (pares : List (CStr × CStr)) :
    (inserirTodasNaHash inicializarHash pares).Cabe := by
  induction pares using List.reverseRecOn with
  | nil => exact cabe_inicializarHash
  | append_singleton xs x ih =>
    rw [inserirTodasNaHash_append]
    exact cabe_inserirNaHash ih _ _

/-- C13: for every table built from the initialised empty table by
`inserirNaHash` calls, the list of names written by `coletarSuspeitosUnicos`
holds no name twice. -/
theorem coletarSuspeitosUnicos_sem_repeticao (pares : List (CStr × CStr)) :
    (coletarSuspeitosUnicos (inserirTodasNaHash inicializarHash pares)).Nodup := by
  rw [coletarSuspeitosUnicos_eq _ (cabe_inserirTodasNaHash pares)]
  exact (nodup_acumular List.nodup_nil _).sublist (List.take_sublist _ _)

theorem length_acumular_nil (vs : List CStr) : (acumular [] vs).length = vs.dedup.length := by
  apply List.Perm.length_eq
  rw [List.perm_ext_iff_of_nodup (nodup_acumular List.nodup_nil vs) (List.nodup_dedup vs)]
  intro a
  rw [mem_acumular, List.mem_dedup]
  simp

/-- C14 (as amended): for every table built from the initialised empty table by
`inserirNaHash` calls, `coletarSuspeitosUnicos` writes at most `HASH_SIZE`
names, each a value of some entry; when the table holds at most `HASH_SIZE`
distinct suspect names, every name that is the value of an entry is in the
list and the count `qtd` is the number of distinct names; when it holds more
than `HASH_SIZE` distinct names, the list stops at `HASH_SIZE` names: the count
`qtd` is `HASH_SIZE`. -/
theorem coletarSuspeitosUnicos_completo (pares : List (CStr × CStr)) :
    (coletarSuspeitosUnicos (inserirTodasNaHash inicializarHash pares)).length ≤ HASH_SIZE ∧
      (∀ s ∈ coletarSuspeitosUnicos (inserirTodasNaHash inicializarHash pares),
        s ∈ (inserirTodasNaHash inicializarHash pares).valores) ∧
      ((inserirTodasNaHash inicializarHash pares).valores.dedup.length ≤ HASH_SIZE →
        (∀ s ∈ (inserirTodasNaHash inicializarHash pares).valores,
          s ∈ coletarSuspeitosUnicos (inserirTodasNaHash inicializarHash pares)) ∧
        (coletarSuspeitosUnicos (inserirTodasNaHash inicializarHash pares)).length =
          (inserirTodasNaHash inicializarHash pares).valores.dedup.length) ∧
      (HASH_SIZE < (inserirTodasNaHash inicializarHash pares).valores.dedup.length →
        (coletarSuspeitosUnicos (inserirTodasNaHash inicializarHash pares)).length =
          HASH_SIZE) := by
  rw [coletarSuspeitosUnicos_eq _ (cabe_inserirTodasNaHash pares)]
  have hl := length_acumular_nil (inserirTodasNaHash inicializarHash pares).valores
  refine ⟨by simp [List.length_take], fun s hs => ?_, fun hle => ?_, fun hgt => ?_⟩
  · have := (mem_acumular [] _ s).1 (List.mem_of_mem_take hs)
    simpa using this
  · rw [List.take_of_length_le (by omega)]
    exact ⟨fun s hs => (mem_acumular [] _ s).2 (Or.inr hs), hl⟩
  · rw [List.length_take, hl]
    exact Nat.min_eq_left (le_of_lt hgt)

set_option maxRecDepth 100000 in
/-- Witness for C14: the table that maps `A` to `Suspect1` lists `Suspect1`, and
the table that holds 54 distinct names lists `HASH_SIZE` of them. -/
theorem coletarSuspeitosUnicos_completo_witness :
    (inserirTodasNaHash inicializarHash [(textoA, suspeito1)]).valores.dedup.length ≤ HASH_SIZE ∧
      suspeito1 ∈ coletarSuspeitosUnicos (inserirTodasNaHash inicializarHash [(textoA, suspeito1)]) ∧
      (coletarSuspeitosUnicos (inserirTodasNaHash inicializarHash [(textoA, suspeito1)])).length =
        (inserirTodasNaHash inicializarHash [(textoA, suspeito1)]).valores.dedup.length ∧
      HASH_SIZE < (inserirTodasNaHash inicializarHash muitosPares).valores.dedup.length ∧
      (coletarSuspeitosUnicos (inserirTodasNaHash inicializarHash muitosPares)).length =
        HASH_SIZE :=
  ⟨by decide,
    ((coletarSuspeitosUnicos_completo [(textoA, suspeito1)]).2.2.1 (by decide)).1 suspeito1
      (by decide),
    ((coletarSuspeitosUnicos_completo [(textoA, suspeito1)]).2.2.1 (by decide)).2,
    by decide,
    (coletarSuspeitosUnicos_completo muitosPares).2.2.2 (by decide)⟩

set_option maxRecDepth 100000 in
/-- C14 fails as stated: after 54 calls with 54 distinct names the table holds 54
distinct values, the count reported is 53 and the name `R` is not listed. -/
theorem coletarSuspeitosUnicos_completo_falha :
    (inserirTodasNaHash inicializarHash muitosPares).valores.dedup.length = 54 ∧
      (coletarSuspeitosUnicos (inserirTodasNaHash inicializarHash muitosPares)).length = 53 ∧
      cstr [82] ∈ (inserirTodasNaHash inicializarHash muitosPares).valores ∧
      cstr [82] ∉ coletarSuspeitosUnicos (inserirTodasNaHash inicializarHash muitosPares) := by
  refine ⟨?_, ?_, ?_, ?_⟩ <;> decide

/-! ## Suspect table: keys are not repeated -/

theorem semRepetir_inicializarHash : inicializarHash.SemRepetir := by
  intro i
  simp [inicializarHash]

theorem semRepetir_inserirNaHash {ht : HashTable} (hs : ht.SemRepetir) {k : CStr} (s : CStr)
    (hk : k.length < MAX_NAME) : (inserirNaHash ht (some k) (some s)).SemRepetir := by
  intro i
  rw [buckets_inserirNaHash]
  by_cases hi : i = hash_djb2 k
  · rw [if_pos hi]
    obtain ⟨h1, h2⟩ := hs (hash_djb2 k)
    cases hsob : sobrescrever k s (ht.buckets (hash_djb2 k)) with
    | some cadeia =>
      obtain ⟨l1, cur, l2, e1, e2, _⟩ := sobrescrever_some hsob
      simp only
      rw [e1] at h1 h2
      rw [e2]
      constructor
      · intro e he
        simp only [List.mem_append, List.mem_cons] at he
        rw [hi]
        rcases he with h | h | h
        · exact h1 e (by simp [h])
        · rw [h]
          exact h1 cur (by simp)
        · exact h1 e (by simp [h])
      · simpa using h2
    | none =>
      simp only
      rw [strncpy_of_lt_MAX_NAME hk]
      constructor
      · intro e he
        rw [hi]
        rcases List.mem_cons.1 he with h | h
        · rw [h]
        · exact h1 e h
      · rw [List.map_cons, List.nodup_cons]
        exact ⟨sobrescrever_none hsob, h2⟩
  · rw [if_neg hi]
    exact hs i

theorem semRepetir_inserirTodasNaHash (pares : List (CStr × CStr))
    (hk : ∀ par ∈ pares, par.1.length < MAX_NAME) :
    (inserirTodasNaHash inicializarHash pares).SemRepetir := by
  induction pares using List.reverseRecOn with
  | nil => exact semRepetir_inicializarHash
  | append_singleton xs x ih =>
    rw [inserirTodasNaHash_append]
    exact semRepetir_inserirNaHash (ih (fun p hp => hk p (List.mem_append_left _ hp))) _
      (hk x (by simp))

theorem chaves_eq (ht : HashTable) :
    ht.chaves = (List.finRange HASH_SIZE).flatMap (fun i => (ht.buckets i).map (fun e => e.pista)) := by
  simp only [HashTable.chaves, HashTable.entradas, List.map_flatMap]

theorem nodup_chaves {ht : HashTable} (hs : ht.SemRepetir) : ht.chaves.Nodup := by
  rw [chaves_eq, List.nodup_flatMap]
  refine ⟨fun i _ => (hs i).2, ?_⟩
  apply (List.nodup_finRange HASH_SIZE).pairwise_of_forall_ne
  intro a _ b _ hab
  simp only [Function.onFun]
  rw [List.disjoint_left]
  intro x hxa hxb
  obtain ⟨ea, hea, rfl⟩ := List.mem_map.1 hxa
  obtain ⟨eb, heb, hab2⟩ := List.mem_map.1 hxb
  apply hab
  rw [← (hs a).1 ea hea, ← (hs b).1 eb heb, hab2]

theorem chaves_inserirNaHash_presente {ht : HashTable} (hs : ht.SemRepetir) {k : CStr} (s : CStr)
    (hk : k ∈ ht.chaves) : (inserirNaHash ht (some k) (some s)).chaves = ht.chaves := by
  rw [chaves_eq] at hk
  obtain ⟨i, _, hi⟩ := List.mem_flatMap.1 hk
  obtain ⟨e, he, hek⟩ := List.mem_map.1 hi
  have hik : i = hash_djb2 k := by rw [← (hs i).1 e he, hek]
  subst hik
  obtain ⟨nova, hn⟩ := sobrescrever_isSome s hi
  obtain ⟨l1, cur, l2, e1, e2, _⟩ := sobrescrever_some hn
  rw [chaves_eq, chaves_eq]
  congr 1
  funext j
  rw [buckets_inserirNaHash]
  by_cases hj : j = hash_djb2 k
  · rw [if_pos hj, hn, hj]
    simp only
    rw [e1, e2]
    simp
  · rw [if_neg hj]

theorem length_entradas (ht : HashTable) : ht.entradas.length = ht.chaves.length := by
  simp [HashTable.chaves]

/-- C15 (as amended): after any sequence of `inserirNaHash` calls on the
initialised empty table whose keys have at most `MAX_NAME - 1` bytes, no two
entries, in the same bucket or in different ones, hold the same key, and a
further call with a key already held keeps the keys of the table and the
number of entries as they are. -/
theorem inserirNaHash_chaves_sem_repeticao (pares : List (CStr × CStr))
    (hk : ∀ par ∈ pares, par.1.length < MAX_NAME) :
    (inserirTodasNaHash inicializarHash pares).chaves.Nodup ∧
      ∀ k s, k ∈ (inserirTodasNaHash inicializarHash pares).chaves →
        (inserirNaHash (inserirTodasNaHash inicializarHash pares) (some k) (some s)).chaves =
            (inserirTodasNaHash inicializarHash pares).chaves ∧
          (inserirNaHash (inserirTodasNaHash inicializarHash pares) (some k) (some s)).entradas.length =
            (inserirTodasNaHash inicializarHash pares).entradas.length := by
  have hs := semRepetir_inserirTodasNaHash pares hk
  refine ⟨nodup_chaves hs, fun k s hmem => ?_⟩
  have hc := chaves_inserirNaHash_presente hs s hmem
  exact ⟨hc, by rw [length_entradas, length_entradas, hc]⟩

/-- Witness for C15: `A` registered twice leaves one entry with key `A`. -/
theorem inserirNaHash_chaves_sem_repeticao_witness :
    (∀ par ∈ [(textoA, textoA), (textoA, textoB)], par.1.length < MAX_NAME) ∧
      (inserirTodasNaHash inicializarHash [(textoA, textoA), (textoA, textoB)]).chaves.Nodup ∧
      (inserirTodasNaHash inicializarHash [(textoA, textoA), (textoA, textoB)]).chaves = [textoA] :=
  ⟨by decide,
    (inserirNaHash_chaves_sem_repeticao [(textoA, textoA), (textoA, textoB)] (by decide)).1,
    by decide⟩

set_option maxRecDepth 8000 in
/-- C15 fails as stated: a 64-byte key registered twice leaves two entries that
both hold its first 63 bytes as key. -/
theorem inserirNaHash_chaves_sem_repeticao_falha :
    (inserirTodasNaHash inicializarHash [(textoLongo, textoA), (textoLongo, textoB)]).chaves =
        [textoCortado, textoCortado] ∧
      ¬ (inserirTodasNaHash inicializarHash
          [(textoLongo, textoA), (textoLongo, textoB)]).chaves.Nodup := by
  refine ⟨?_, ?_⟩ <;> decide

/-! ## Clue tree: insertion against the reference on the in-order list -/

theorem incrementar_ausente {t : CStr} {l : List (CStr × Int)}
    (h : t ∉ l.map (fun n => n.1)) : incrementar t l = l := by
  induction l with
  | nil => rfl
  | cons n resto ih =>
    simp only [List.map_cons, List.mem_cons, not_or] at h
    simp only [incrementar, List.map_cons] at ih ⊢
    rw [if_neg (fun e => h.1 e.symm), ih h.2]

theorem incrementar_append (t : CStr) (l1 l2 : List (CStr × Int)) :
    incrementar t (l1 ++ l2) = incrementar t l1 ++ incrementar t l2 := by
  simp [incrementar]

theorem inserirOrdenado_antes (t : CStr) (l1 : List (CStr × Int)) (n : CStr × Int)
    (l2 : List (CStr × Int)) (h : strcmp t n.1 < 0) :
    inserirOrdenado t (l1 ++ n :: l2) = inserirOrdenado t l1 ++ n :: l2 := by
  induction l1 with
  | nil => simp [inserirOrdenado, h]
  | cons x xs ih =>
    simp only [List.cons_append, inserirOrdenado]
    split
    · rfl
    · exact congrArg (List.cons x) ih

theorem inserirOrdenado_depois (t : CStr) (l1 l2 : List (CStr × Int))
    (h : ∀ x ∈ l1, ¬ strcmp t x.1 < 0) :
    inserirOrdenado t (l1 ++ l2) = l1 ++ inserirOrdenado t l2 := by
  induction l1 with
  | nil => rfl
  | cons x xs ih =>
    simp only [List.cons_append, inserirOrdenado]
    rw [if_neg (h x (List.mem_cons_self _ _))]
    exact congrArg (List.cons x) (ih (fun y hy => h y (List.mem_cons_of_mem _ hy)))

theorem emOrdem_inserirPista_referencia {raiz : BSTNode} (hb : raiz.ArvoreDeBusca) {t : CStr}
    (hne : t ≠ []) (hlen : t.length < MAX_NAME)
    (hmax : ∀ n ∈ raiz.emOrdem, n.1 = t → -2147483648 ≤ n.2 ∧ n.2 < 2147483647) :
    (inserirPista raiz (some t)).emOrdem =
      if t ∈ raiz.textos then incrementar t raiz.emOrdem else inserirOrdenado t raiz.emOrdem := by
  induction raiz with
  | nil =>
    rw [inserirPista_nil hne, strncpy_of_lt_MAX_NAME hlen]
    simp [textos_nil, BSTNode.emOrdem, inserirOrdenado]
  | node k c l r ihl ihr =>
    obtain ⟨hl, hr, hbl, hbr⟩ := hb
    have hml : ∀ n ∈ l.emOrdem, n.1 = t → -2147483648 ≤ n.2 ∧ n.2 < 2147483647 :=
      fun n hn => hmax n (by simp [BSTNode.emOrdem, hn])
    have hmr : ∀ n ∈ r.emOrdem, n.1 = t → -2147483648 ≤ n.2 ∧ n.2 < 2147483647 :=
      fun n hn => hmax n (by simp [BSTNode.emOrdem, hn])
    have hmk : k = t → int32 (c + 1) = c + 1 := by
      intro e
      have := hmax (k, c) (by simp [BSTNode.emOrdem]) e
      exact int32_of_ehInt (by unfold EhInt; simp only at this; omega)
    have hnl : ∀ {x : CStr}, 0 ≤ strcmp x k → x ∉ l.emOrdem.map (fun n => n.1) := by
      intro x hx hm
      have := hl x hm
      omega
    have hnr : ∀ {x : CStr}, strcmp x k ≤ 0 → x ∉ r.emOrdem.map (fun n => n.1) := by
      intro x hx hm
      have := hr x hm
      omega
    rw [inserirPista_node hne, textos_node]
    by_cases h0 : strcmp t k = 0
    · have htk : t = k := strcmp_eq_zero h0
      subst htk
      rw [if_pos h0, if_pos (by simp), hmk rfl]
      simp only [BSTNode.emOrdem, incrementar_append]
      rw [incrementar_ausente (hnl (by omega))]
      simp only [incrementar, List.map_cons, if_true]
      have := incrementar_ausente (hnr (le_of_eq h0))
      simp only [incrementar] at this
      rw [this]
    · rw [if_neg h0]
      have hne2 : t ≠ k := fun e => h0 (e ▸ strcmp_self t)
      by_cases h1 : strcmp t k < 0
      · rw [if_pos h1]
        have htr : t ∉ r.textos := hnr (le_of_lt h1)
        simp only [BSTNode.emOrdem, ihl hbl hml]
        by_cases hm : t ∈ l.textos
        · rw [if_pos hm, if_pos (by simp [hm])]
          rw [incrementar_append]
          congr 1
          have hkr : t ∉ ((k, c) :: r.emOrdem).map (fun n => n.1) := by
            intro hm2
            rcases List.mem_cons.1 hm2 with h | h
            · exact hne2 h
            · exact htr h
          exact (incrementar_ausente hkr).symm
        · rw [if_neg hm, if_neg (by simp [hm, hne2, htr])]
          exact (inserirOrdenado_antes t _ (k, c) _ h1).symm
      · rw [if_neg h1]
        have h2 : 0 < strcmp t k := by omega
        have htl : t ∉ l.textos := hnl (le_of_lt h2)
        have hskip : ∀ x ∈ l.emOrdem ++ [(k, c)], ¬ strcmp t x.1 < 0 := by
          intro x hx
          rcases List.mem_append.1 hx with h | h
          · have hxk := hl x.1 (List.mem_map.2 ⟨x, h, rfl⟩)
            have hsw := strcmp_swap t k
            have hlt := strcmp_lt_of_lt_of_le hxk (by omega : strcmp k t ≤ 0)
            have := strcmp_swap x.1 t
            omega
          · simp only [List.mem_singleton] at h
            rw [h]
            exact h1
        simp only [BSTNode.emOrdem, ihr hbr hmr]
        by_cases hm : t ∈ r.textos
        · rw [if_pos hm, if_pos (by simp [hm])]
          rw [incrementar_append, incrementar_ausente htl]
          simp only [incrementar, List.map_cons]
          rw [if_neg (fun e => hne2 e.symm)]
        · rw [if_neg hm, if_neg (by simp [hm, hne2, htl])]
          have := inserirOrdenado_depois t (l.emOrdem ++ [(k, c)]) r.emOrdem hskip
          simpa using this.symm

/-- C16 (as amended): for every clue tree that satisfies the binary-search-tree
ordering and every text `t` of at most `MAX_NAME - 1` bytes whose `contador` in
the tree, when `t` is present, is an `int` below `INT_MAX` = 2147483647, the
in-order list of `inserirPista(tree, t)` is the reference result on the in-order
list of the tree: unchanged when `t` is empty, the counter of the pair of `t`
increased by 1 when `t` is present, otherwise `(t, 1)` inserted at its sorted
position, all other pairs kept. -/
theorem inserirPista_refina_referencia (raiz : BSTNode) (t : CStr)
    (hb : raiz.ArvoreDeBusca) (hlen : t.length < MAX_NAME)
    (hmax : ∀ n ∈ raiz.emOrdem, n.1 = t → -2147483648 ≤ n.2 ∧ n.2 < 2147483647) :
    (inserirPista raiz (some t)).emOrdem = inserirReferencia t raiz.emOrdem := by
  unfold inserirReferencia
  by_cases hne : t = []
  · subst hne
    rw [inserirPista_vazia]
    simp
  · rw [if_neg hne, emOrdem_inserirPista_referencia hb hne hlen hmax]
    rfl

/-- Witness for C16: inserting `A` into the tree that holds `B` puts `(A, 1)`
before `B`, and inserting `B` into it raises the counter of `B` from 1 to 2. -/
theorem inserirPista_refina_referencia_witness :
    (BSTNode.node textoB 1 .nil .nil).ArvoreDeBusca ∧ textoA.length < MAX_NAME ∧
      (inserirPista (.node textoB 1 .nil .nil) (some textoA)).emOrdem =
        inserirReferencia textoA (BSTNode.node textoB 1 .nil .nil).emOrdem ∧
      inserirReferencia textoA (BSTNode.node textoB 1 .nil .nil).emOrdem =
        [(textoA, 1), (textoB, 1)] ∧
      (inserirPista (.node textoB 1 .nil .nil) (some textoB)).emOrdem =
        inserirReferencia textoB (BSTNode.node textoB 1 .nil .nil).emOrdem ∧
      inserirReferencia textoB (BSTNode.node textoB 1 .nil .nil).emOrdem = [(textoB, 2)] :=
  ⟨⟨by simp [textos_nil], by simp [textos_nil], trivial, trivial⟩, by decide,
    inserirPista_refina_referencia (.node textoB 1 .nil .nil) textoA
      ⟨by simp [textos_nil], by simp [textos_nil], trivial, trivial⟩ (by decide) (by decide),
    by decide,
    inserirPista_refina_referencia (.node textoB 1 .nil .nil) textoB
      ⟨by simp [textos_nil], by simp [textos_nil], trivial, trivial⟩ (by decide) (by decide),
    by decide⟩

/-- C16 fails as stated: inserting a 64-byte text into the empty tree gives the
pair holding its first 63 bytes, not the pair `(t, 1)` of the reference; and
inserting `A` into the tree that holds `A` with `contador = INT_MAX` leaves the
counter at -2147483648, not at the 2147483648 of the reference. -/
theorem inserirPista_refina_referencia_falha :
    (inserirPista .nil (some textoLongo)).emOrdem = [(textoCortado, 1)] ∧
      inserirReferencia textoLongo BSTNode.nil.emOrdem = [(textoLongo, 1)] ∧
      (inserirPista .nil (some textoLongo)).emOrdem ≠
        inserirReferencia textoLongo BSTNode.nil.emOrdem ∧
      (BSTNode.node textoA 2147483647 .nil .nil).ArvoreDeBusca ∧
      (inserirPista (.node textoA 2147483647 .nil .nil) (some textoA)).emOrdem =
        [(textoA, -2147483648)] ∧
      inserirReferencia textoA (BSTNode.node textoA 2147483647 .nil .nil).emOrdem =
        [(textoA, 2147483648)] ∧
      (inserirPista (.node textoA 2147483647 .nil .nil) (some textoA)).emOrdem ≠
        inserirReferencia textoA (BSTNode.node textoA 2147483647 .nil .nil).emOrdem := by
  refine ⟨?_, ?_, ?_, ⟨by simp [textos_nil], by simp [textos_nil], trivial, trivial⟩,
    ?_, ?_, ?_⟩ <;> decide

/-! ## Navigator: the history is the chain of ancestors -/

theorem bemFormada_mk (n p : CStr) (e d : Option Sala) :
    (Sala.mk n p e d).BemFormada ↔
      p.length < MAX_NAME ∧ (∀ f, e = some f → f.BemFormada) ∧ (∀ f, d = some f → f.BemFormada) := by
  cases e <;> cases d <;> simp [Sala.BemFormada]

theorem bemFormada_descer {raiz : Sala} (h : raiz.BemFormada) {caminho : List Bool} {s : Sala}
    (hd : raiz.descer caminho = some s) : s.pista.length < MAX_NAME := by
  induction caminho generalizing raiz with
  | nil =>
    simp only [Sala.descer, Option.some.injEq] at hd
    subst hd
    cases raiz with
    | mk n p e d => exact ((bemFormada_mk n p e d).1 h).1
  | cons lado resto ih =>
    cases raiz with
    | mk n p e d =>
      obtain ⟨_, he, hdir⟩ := (bemFormada_mk n p e d).1 h
      simp only [Sala.descer] at hd
      cases hf : (Sala.mk n p e d).filho lado with
      | none => simp [hf] at hd
      | some f =>
        rw [hf] at hd
        simp only at hd
        cases lado with
        | false => exact ih (he f (by simpa [Sala.filho, Sala.esquerda] using hf)) hd
        | true => exact ih (hdir f (by simpa [Sala.filho, Sala.direita] using hf)) hd

theorem bemFormada_hall : hall.BemFormada := by
  simp [hall, salaEstar, cozinha, biblioteca, jardim, criarSala, Sala.ligar, bemFormada_mk,
    Sala.nome, Sala.pista, strncpy, MAX_NAME, textoA, cstr]

/-- What the token dispatch can do in a valid state: nothing, a push and a move
to a child, a pop and a move to the popped room, or a return. -/
theorem mover_casos {e : Estado} (hv : e.Valido) (tok : CStr) :
    mover e tok = .segue e ∨
      (∃ f, EhPai e.atual f ∧ e.topo + 1 < (STACK_MAX : Int) ∧
        mover e tok =
          .segue ⟨f, e.pilha.set (e.topo + 1).toNat e.atual, e.topo + 1, e.raizPistas⟩) ∨
      (∃ s, 0 ≤ e.topo ∧ lerPilha e.pilha e.topo = some s ∧
        mover e tok = .segue ⟨s, e.pilha, e.topo - 1, e.raizPistas⟩) ∨
      mover e tok = .fim e.raizPistas := by
  obtain ⟨h1, h2, h3, _⟩ := hv
  have hlen : (e.pilha.length : Int) = (STACK_MAX : Int) := by rw [h1]
  unfold mover
  split
  · cases hesq : e.atual.esquerda with
    | none => exact Or.inl rfl
    | some f =>
      simp only
      split
      · exact Or.inl rfl
      · rename_i hcap
        rw [escreverPilha_some e.atual (by omega) (by omega)]
        exact Or.inr (Or.inl ⟨f, Or.inl hesq, by omega, rfl⟩)
  · split
    · cases hdir : e.atual.direita with
      | none => exact Or.inl rfl
      | some f =>
        simp only
        split
        · exact Or.inl rfl
        · rename_i hcap
          rw [escreverPilha_some e.atual (by omega) (by omega)]
          exact Or.inr (Or.inl ⟨f, Or.inr hdir, by omega, rfl⟩)
    · split
      · split
        · rename_i htopo
          obtain ⟨s, hs⟩ := lerPilha_isSome e.pilha e.topo (by omega) (by omega)
          refine Or.inr (Or.inr (Or.inl ⟨s, by omega, hs, ?_⟩))
          rw [hs]
        · exact Or.inl rfl
      · split
        · exact Or.inr (Or.inr (Or.inr rfl))
        · exact Or.inl rfl

/-- A property kept by the clue collection and by every step of the token
dispatch holds in every state the loop reaches. -/
theorem laco_invariante (P : Estado → Prop) (hc : ∀ e, P e → P (coletar e))
    (hm : ∀ e tok e1, P e → mover e tok = .segue e1 → P e1) {e : Estado} (he : P e)
    (entradas : List (Option CStr)) {e1 : Estado} (h : laco e entradas = .segue e1) : P e1 := by
  induction entradas generalizing e with
  | nil =>
    simp only [laco] at h
    injection h with h
    exact h ▸ he
  | cons entrada resto ih =>
    simp only [laco] at h
    cases hit : iterar e entrada with
    | segue e2 =>
      rw [hit] at h
      apply ih _ h
      cases entrada with
      | none =>
        simp only [iterar] at hit
        injection hit with hit
        exact hit ▸ hc e he
      | some tok => exact hm _ tok _ (hc e he) hit
    | fim pistas => simp [hit] at h
    | foraDosLimites => simp [hit] at h

theorem mover_fim {e : Estado} {tok : CStr} {pistas : BSTNode} (h : mover e tok = .fim pistas) :
    pistas = e.raizPistas := by
  unfold mover at h
  repeat' split at h
  all_goals first
    | (injection h with h; exact h.symm)
    | exact absurd h (by simp)

theorem take_succ_set (l : List Sala) (n : Nat) (s : Sala) (h : n < l.length) :
    (l.set n s).take (n + 1) = l.take n ++ [s] := by
  rw [List.take_succ, take_set_self, List.getElem?_set_self h]
  rfl

theorem take_succ_lerPilha {pilha : List Sala} {i : Int} {s : Sala} (h0 : 0 ≤ i)
    (h : lerPilha pilha i = some s) : pilha.take (i.toNat + 1) = pilha.take i.toNat ++ [s] := by
  unfold lerPilha at h
  rw [if_pos h0, List.get?_eq_getElem?] at h
  rw [List.take_succ, h]
  rfl

theorem historico_empilhar (e : Estado) (f : Sala) (h0 : -1 ≤ e.topo)
    (h1 : e.topo + 1 < (e.pilha.length : Int)) :
    Estado.historico ⟨f, e.pilha.set (e.topo + 1).toNat e.atual, e.topo + 1, e.raizPistas⟩ =
      e.historico ++ [e.atual] := by
  simp only [Estado.historico]
  have : (e.topo + 1 + 1).toNat = (e.topo + 1).toNat + 1 := by omega
  rw [this]
  exact take_succ_set _ _ _ (by omega)

theorem historico_desempilhar (e : Estado) {s : Sala} (h0 : 0 ≤ e.topo)
    (h : lerPilha e.pilha e.topo = some s) :
    e.historico = Estado.historico ⟨s, e.pilha, e.topo - 1, e.raizPistas⟩ ++ [s] := by
  simp only [Estado.historico]
  have h1 : (e.topo + 1).toNat = e.topo.toNat + 1 := by omega
  have h2 : (e.topo - 1 + 1).toNat = e.topo.toNat := by
    rw [Int.sub_add_cancel]
  rw [h1, h2]
  exact take_succ_lerPilha h0 h

theorem naTrilha_coletar {raiz : Sala} {e : Estado} (h : e.NaTrilha raiz) :
    (coletar e).NaTrilha raiz := by
  unfold Estado.NaTrilha at h ⊢
  rw [coletar_historico, coletar_atual]
  exact h

theorem naTrilha_mover {raiz : Sala} {e : Estado} (hv : e.Valido) (h : e.NaTrilha raiz)
    {tok : CStr} {e1 : Estado} (hm : mover e tok = .segue e1) : e1.NaTrilha raiz := by
  obtain ⟨hl, h0, _, _⟩ := id hv
  obtain ⟨hch, hhead⟩ := h
  rcases mover_casos hv tok with h1 | ⟨f, hf, hcap, h1⟩ | ⟨s, hs0, hler, h1⟩ | h1
  · rw [h1] at hm
    injection hm with hm
    subst hm
    exact ⟨hch, hhead⟩
  · rw [h1] at hm
    injection hm with hm
    subst hm
    have hh := historico_empilhar e f h0 (by rw [hl]; exact hcap)
    unfold Estado.NaTrilha
    rw [hh]
    constructor
    · apply List.Chain'.append hch (List.chain'_singleton f)
      intro x hx y hy
      rw [List.getLast?_concat] at hx
      simp only [List.head?_cons, Option.mem_def, Option.some.injEq] at hx hy
      subst hx
      subst hy
      exact hf
    · rw [List.head?_append_of_ne_nil _ (by simp)]
      exact hhead
  · rw [h1] at hm
    injection hm with hm
    subst hm
    have hh := historico_desempilhar e hs0 hler
    rw [hh] at hch hhead
    unfold Estado.NaTrilha
    constructor
    · exact hch.left_of_append
    · rw [List.head?_append_of_ne_nil _ (by simp)] at hhead
      exact hhead
  · rw [h1] at hm
    exact absurd hm (by simp)

theorem naTrilha_estadoInicial (raiz : Sala) (pistas : BSTNode) (pilha0 : List Sala) :
    (estadoInicial raiz pistas pilha0).NaTrilha raiz := by
  simp [Estado.NaTrilha, Estado.historico, estadoInicial]

theorem naTrilha_of_alcancavel {raiz : Sala} {pilha0 : List Sala} {e : Estado}
    (h : Alcancavel raiz pilha0 e) : e.Valido ∧ e.NaTrilha raiz := by
  obtain ⟨hl, entradas, he⟩ := h
  exact laco_invariante (fun x => x.Valido ∧ x.NaTrilha raiz)
    (fun x hx => ⟨valido_coletar hx.1, naTrilha_coletar hx.2⟩)
    (fun x tok x1 hx hm => ⟨(valido_mover hx.1 tok).2 x1 hm, naTrilha_mover hx.1 hx.2 hm⟩)
    ⟨valido_estadoInicial raiz hl, naTrilha_estadoInicial raiz .nil pilha0⟩ entradas he

theorem descer_cons (s : Sala) (lado : Bool) (resto : List Bool) {f : Sala}
    (h : s.filho lado = some f) : s.descer (lado :: resto) = f.descer resto := by
  simp only [Sala.descer, h]

theorem ehPai_filho {pai f : Sala} (h : EhPai pai f) : ∃ lado, pai.filho lado = some f := by
  rcases h with h | h
  · exact ⟨false, by simpa [Sala.filho] using h⟩
  · exact ⟨true, by simpa [Sala.filho] using h⟩

/-- A chain of rooms from the root, each the parent of the next, follows a path
of the map: the room at position `i` is the room `i` steps down that path. -/
theorem cadeia_caminho (l : List Sala) (raiz : Sala) (hch : List.Chain' EhPai l)
    (hhead : l.head? = some raiz) :
    ∃ caminho : List Bool, caminho.length + 1 = l.length ∧
      ∀ i, i ≤ caminho.length → l.get? i = raiz.descer (caminho.take i) := by
  induction l generalizing raiz with
  | nil => simp at hhead
  | cons x resto ih =>
    simp only [List.head?_cons, Option.some.injEq] at hhead
    subst hhead
    cases resto with
    | nil =>
      refine ⟨[], rfl, fun i hi => ?_⟩
      have : i = 0 := by simpa using hi
      subst this
      rfl
    | cons y resto2 =>
      rw [List.chain'_cons] at hch
      obtain ⟨lado, hlado⟩ := ehPai_filho hch.1
      obtain ⟨c, hc1, hc2⟩ := ih y hch.2 rfl
      refine ⟨lado :: c, by simp only [List.length_cons] at hc1 ⊢; omega, fun i hi => ?_⟩
      cases i with
      | zero => rfl
      | succ j =>
        simp only [List.length_cons] at hi
        rw [List.get?_cons_succ, List.take_succ_cons, descer_cons _ _ _ hlado]
        exact hc2 j (by omega)

/-- C20: in every reachable state the undo history read bottom to top, followed
by the current room, is a chain that starts at the root in which every room is
the parent of the next: it is the list of rooms along a path of the map whose
length is the length of the history (the depth of the current room), `topo + 1`;
an empty history means the current room is the root, and with a non-empty
history the token `b` moves to the top of the history, the parent of the current
room, and removes it from the history. -/
theorem historico_cadeia_de_ancestrais (raiz : Sala) (pilha0 : List Sala) (e : Estado)
    (h : Alcancavel raiz pilha0 e) :
    (e.historico ++ [e.atual]).head? = some raiz ∧
      List.Chain' EhPai (e.historico ++ [e.atual]) ∧
      (∃ caminho : List Bool, caminho.length = e.historico.length ∧
        raiz.descer caminho = some e.atual ∧
        ∀ i, i < caminho.length → e.historico.get? i = raiz.descer (caminho.take i)) ∧
      e.historico.length = (e.topo + 1).toNat ∧
      (e.historico = [] → e.atual = raiz) ∧
      (e.historico ≠ [] → ∃ pai e1, e.historico.getLast? = some pai ∧ EhPai pai e.atual ∧
        iterar e (some tokB) = .segue e1 ∧ e1.atual = pai ∧
        e1.historico = e.historico.dropLast) := by
  obtain ⟨hv, hch, hhead⟩ := naTrilha_of_alcancavel h
  obtain ⟨hl, h0, h1, _⟩ := id hv
  have hlenh : e.historico.length = (e.topo + 1).toNat := by
    simp only [Estado.historico, List.length_take, hl]
    omega
  refine ⟨hhead, hch, ?_, hlenh, ?_, ?_⟩
  · obtain ⟨c, hc1, hc2⟩ := cadeia_caminho _ raiz hch hhead
    have hc : c.length = e.historico.length := by
      simp only [List.length_append, List.length_singleton] at hc1
      omega
    refine ⟨c, hc, ?_, fun i hi => ?_⟩
    · have := hc2 c.length (le_refl _)
      rw [List.take_length] at this
      rw [← this, hc, List.get?_eq_getElem?, List.getElem?_append_right (le_refl _)]
      simp
    · have := hc2 i (le_of_lt hi)
      rw [← this, List.get?_eq_getElem?, List.get?_eq_getElem?,
        List.getElem?_append_left (by omega)]
  · intro hnil
    rw [hnil] at hhead
    simpa using hhead
  · intro hne
    have htopo : 0 ≤ e.topo := by
      by_contra hneg
      apply hne
      apply List.eq_nil_of_length_eq_zero
      rw [hlenh]
      omega
    obtain ⟨s, hs⟩ := lerPilha_isSome e.pilha e.topo htopo (by rw [hl]; exact h1)
    have hh := historico_desempilhar e htopo hs
    have hm := mover_voltar (coletar e) s (by rw [coletar_topo]; exact htopo)
      (by rw [coletar_pilha, coletar_topo]; exact hs)
    rw [coletar_pilha, coletar_topo] at hm
    refine ⟨s, _, ?_, ?_, hm, rfl, ?_⟩
    · rw [hh, List.getLast?_concat]
    · rw [hh, List.append_assoc] at hch
      have h2 : List.Chain' EhPai ([s] ++ [e.atual]) := hch.right_of_append
      exact List.chain'_pair.1 h2
    · rw [hh, List.dropLast_concat]
      rfl

/-- Witness for C20: in `Biblioteca`, reached by `e`, `e` from `Hall`, the history
is not empty and `b` moves to the top of the history, the parent. -/
theorem historico_cadeia_de_ancestrais_witness :
    estadoNaBiblioteca.historico ≠ [] ∧
      ∃ pai e1, estadoNaBiblioteca.historico.getLast? = some pai ∧
        EhPai pai estadoNaBiblioteca.atual ∧
        iterar estadoNaBiblioteca (some tokB) = .segue e1 ∧ e1.atual = pai ∧
        e1.historico = estadoNaBiblioteca.historico.dropLast :=
  ⟨fun h => absurd (congrArg List.length h) (by decide),
    (historico_cadeia_de_ancestrais hall (pilhaDe hall) estadoNaBiblioteca
      alcancavel_estadoNaBiblioteca).2.2.2.2.2
      (fun h => absurd (congrArg List.length h) (by decide))⟩

/-! ## Navigator: what the clue tree holds -/

theorem pista_cabe_of_naTrilha {raiz : Sala} (hbf : raiz.BemFormada) {e : Estado}
    (h : e.NaTrilha raiz) : e.atual.pista.length < MAX_NAME := by
  obtain ⟨c, hc1, hc2⟩ := cadeia_caminho _ raiz h.1 h.2
  have := hc2 c.length (le_refl _)
  rw [List.take_length] at this
  have hc : c.length = e.historico.length := by
    simp only [List.length_append, List.length_singleton] at hc1
    omega
  rw [hc, List.get?_eq_getElem?, List.getElem?_append_right (le_refl _)] at this
  simp only [Nat.sub_self, List.getElem?_cons_zero] at this
  exact bemFormada_descer hbf this.symm

theorem iterar_raizPistas {e : Estado} (hv : e.Valido) {entrada : Option CStr} {e1 : Estado}
    (h : iterar e entrada = .segue e1) : e1.raizPistas = (coletar e).raizPistas := by
  cases entrada with
  | none =>
    simp only [iterar] at h
    injection h with h
    rw [h]
  | some tok =>
    simp only [iterar] at h
    rcases mover_casos (valido_coletar hv) tok with h1 | ⟨f, _, _, h1⟩ | ⟨s, _, _, h1⟩ | h1
    all_goals
      rw [h1] at h
      first
        | (injection h with h; rw [← h])
        | exact absurd h (by simp)

theorem iterar_fim {e : Estado} {entrada : Option CStr} {pistas : BSTNode}
    (h : iterar e entrada = .fim pistas) : pistas = (coletar e).raizPistas := by
  cases entrada with
  | none => simp [iterar] at h
  | some tok => exact mover_fim h

theorem mem_textos_coletar_iff {e : Estado} (ho : e.raizPistas.Ordenada)
    (hlen : e.atual.pista.length < MAX_NAME) (k : CStr) :
    k ∈ (coletar e).raizPistas.textos ↔
      k ∈ e.raizPistas.textos ∨ (k ≠ [] ∧ e.atual.pista = k) := by
  rw [coletar_raizPistas]
  by_cases hp : e.atual.pista = []
  · rw [if_neg (fun h => h.1 hp)]
    constructor
    · exact Or.inl
    · rintro (h | ⟨h1, h2⟩)
      · exact h
      · exact absurd (hp ▸ h2.symm) h1
  · by_cases hb : buscarPistaNode e.raizPistas (some e.atual.pista) = .nil
    · rw [if_pos ⟨hp, hb⟩, mem_textos_inserirPista hp, strncpy_of_lt_MAX_NAME hlen]
      constructor
      · rintro (h | ⟨_, h⟩)
        · exact Or.inl h
        · exact Or.inr ⟨h ▸ hp, h.symm⟩
      · rintro (h | ⟨_, h⟩)
        · exact Or.inl h
        · exact Or.inr ⟨hb, h.symm⟩
    · rw [if_neg (fun h => hb h.2)]
      constructor
      · exact Or.inl
      · rintro (h | ⟨_, h⟩)
        · exact h
        · rw [← h]
          exact (buscarPistaNode_ne_nil_iff ho _).1 hb

theorem textos_visitadas_geral {raiz : Sala} (hbf : raiz.BemFormada)
    (entradas : List (Option CStr)) (e0 : Estado) (hv : e0.Valido) (ht : e0.NaTrilha raiz) :
    (∀ e, laco e0 entradas = .segue e → ∀ k, k ∈ (coletar e).raizPistas.textos ↔
        k ∈ e0.raizPistas.textos ∨
          (k ≠ [] ∧ ∃ s ∈ salasVisitadas e0 entradas, s.pista = k)) ∧
      (∀ pistas, laco e0 entradas = .fim pistas → ∀ k, k ∈ pistas.textos ↔
        k ∈ e0.raizPistas.textos ∨
          (k ≠ [] ∧ ∃ s ∈ salasVisitadas e0 entradas, s.pista = k)) := by
  induction entradas generalizing e0 with
  | nil =>
    constructor
    · intro e he k
      simp only [laco] at he
      injection he with he
      subst he
      rw [mem_textos_coletar_iff hv.2.2.2 (pista_cabe_of_naTrilha hbf ht)]
      simp [salasVisitadas]
    · intro pistas he
      simp [laco] at he
  | cons entrada resto ih =>
    have hstep := mem_textos_coletar_iff hv.2.2.2 (pista_cabe_of_naTrilha hbf ht)
    cases hit : iterar e0 entrada with
    | segue e1 =>
      have hv1 : e1.Valido := (valido_iterar hv entrada).2 e1 hit
      have ht1 : e1.NaTrilha raiz := by
        cases entrada with
        | none =>
          simp only [iterar] at hit
          injection hit with hit
          exact hit ▸ naTrilha_coletar ht
        | some tok => exact naTrilha_mover (valido_coletar hv) (naTrilha_coletar ht) hit
      have hrp := iterar_raizPistas hv hit
      obtain ⟨ih1, ih2⟩ := ih e1 hv1 ht1
      simp only [laco, hit, salasVisitadas, List.mem_cons, exists_eq_or_imp]
      constructor
      · intro e he k
        rw [ih1 e he k, hrp, hstep]
        tauto
      · intro pistas he k
        rw [ih2 pistas he k, hrp, hstep]
        tauto
    | fim p =>
      have hp := iterar_fim hit
      simp only [laco, hit, salasVisitadas, List.mem_cons, List.not_mem_nil, or_false,
        exists_eq_left]
      constructor
      · intro e he
        simp at he
      · intro pistas he k
        injection he with he
        rw [← he, hp, hstep]
    | foraDosLimites =>
      simp only [laco, hit]
      constructor
      · intro e he
        simp at he
      · intro pistas he
        simp at he

/-- C19: on a map whose clue texts fit their buffers (at most `MAX_NAME - 1`
bytes), after any sequence of input tokens from the root with an empty clue
tree, the texts stored in the clue tree, both when the loop is at its prompt
with the tokens used up and when it has returned, are exactly the non-empty
clue texts of the rooms that have been the current room. -/
theorem textos_sao_pistas_visitadas (raiz : Sala) (pilha0 : List Sala)
    (entradas : List (Option CStr)) (hl : pilha0.length = STACK_MAX) (hbf : raiz.BemFormada) :
    (∀ e, laco (estadoInicial raiz .nil pilha0) entradas = .segue e →
        ∀ k, k ∈ (coletar e).raizPistas.textos ↔
          (k ≠ [] ∧ ∃ s ∈ salasVisitadas (estadoInicial raiz .nil pilha0) entradas,
            s.pista = k)) ∧
      (∀ pistas, explorarSalas (some raiz) .nil pilha0 entradas = .fim pistas →
        ∀ k, k ∈ pistas.textos ↔
          (k ≠ [] ∧ ∃ s ∈ salasVisitadas (estadoInicial raiz .nil pilha0) entradas,
            s.pista = k)) := by
  obtain ⟨h1, h2⟩ := textos_visitadas_geral hbf entradas (estadoInicial raiz .nil pilha0)
    (valido_estadoInicial raiz hl) (naTrilha_estadoInicial raiz .nil pilha0)
  constructor
  · intro e he k
    rw [h1 e he k]
    simp [estadoInicial, textos_nil]
  · intro pistas he k
    rw [h2 pistas he k]
    simp [estadoInicial, textos_nil]

set_option maxRecDepth 8000 in
/-- Witness for C19: after `e`, `e`, `s` from `Hall` the returned tree holds the
text `A`, the clue of `Hall` and of `Biblioteca`, and no other text. -/
theorem textos_sao_pistas_visitadas_witness :
    (pilhaDe hall).length = STACK_MAX ∧ hall.BemFormada ∧
      explorarSalas (some hall) .nil (pilhaDe hall) [some tokE, some tokE, some tokS] =
        .fim (.node textoA 1 .nil .nil) ∧
      ∀ k, k ∈ (BSTNode.node textoA 1 .nil .nil).textos ↔
        (k ≠ [] ∧ ∃ s ∈ salasVisitadas (estadoInicial hall .nil (pilhaDe hall))
          [some tokE, some tokE, some tokS], s.pista = k) :=
  ⟨length_pilhaDe hall, bemFormada_hall, cenario_execucao,
    (textos_sao_pistas_visitadas hall (pilhaDe hall) [some tokE, some tokE, some tokS]
      (length_pilhaDe hall) bemFormada_hall).2 _ cenario_execucao⟩

/-! ## Navigator: every counter is 1 -/

theorem semPista_esquerda (s : Sala) : (semPista s).esquerda = s.esquerda.map semPista := by
  cases s with
  | mk n p e d => cases e <;> cases d <;> simp [semPista, Novato.Sala.esquerda, Sala.esquerda]

theorem semPista_direita (s : Sala) : (semPista s).direita = s.direita.map semPista := by
  cases s with
  | mk n p e d => cases e <;> cases d <;> simp [semPista, Novato.Sala.direita, Sala.direita]

theorem mover_para_esquerda (e : Estado) (hv : e.Valido) (hcap : e.topo + 1 < (STACK_MAX : Int))
    {c : Nat} (hc : c = 101 ∨ c = 69) :
    mover e (cstr [c]) =
      match e.atual.esquerda with
      | some f => .segue ⟨f, e.pilha.set (e.topo + 1).toNat e.atual, e.topo + 1, e.raizPistas⟩
      | none => .segue e := by
  obtain ⟨h1, h2, _, _⟩ := hv
  have hlen : (e.pilha.length : Int) = (STACK_MAX : Int) := by rw [h1]
  unfold mover
  rcases hc with h | h <;> subst h
  all_goals
    rw [if_pos (by decide)]
    cases e.atual.esquerda with
    | none => rfl
    | some f =>
      simp only
      rw [if_neg (by omega), escreverPilha_some _ (by omega) (by omega)]

theorem mover_para_direita (e : Estado) (hv : e.Valido) (hcap : e.topo + 1 < (STACK_MAX : Int))
    {c : Nat} (hc : c = 100 ∨ c = 68) :
    mover e (cstr [c]) =
      match e.atual.direita with
      | some f => .segue ⟨f, e.pilha.set (e.topo + 1).toNat e.atual, e.topo + 1, e.raizPistas⟩
      | none => .segue e := by
  obtain ⟨h1, h2, _, _⟩ := hv
  have hlen : (e.pilha.length : Int) = (STACK_MAX : Int) := by rw [h1]
  unfold mover
  rcases hc with h | h <;> subst h
  all_goals
    rw [if_neg (by decide), if_pos (by decide)]
    cases e.atual.direita with
    | none => rfl
    | some f =>
      simp only
      rw [if_neg (by omega), escreverPilha_some _ (by omega) (by omega)]

/-- One token of the simpler variant is matched by the richer one while its
history is below capacity. -/
theorem simulacao_passo (m : Estado) (hv : m.Valido) (hcap : m.topo + 1 < (STACK_MAX : Int))
    {c : Nat} (hc : c = 101 ∨ c = 69 ∨ c = 100 ∨ c = 68) (escolha : Nat)
    {n1 : Novato.Sala} {c1 : Nat}
    (hn : Novato.iterar (semPista m.atual) escolha (some c) = .segue n1 c1) :
    ∃ m1, iterar m (some (cstr [c])) = .segue m1 ∧ semPista m1.atual = n1 := by
  have hvc := valido_coletar hv
  have hcapc : (coletar m).topo + 1 < (STACK_MAX : Int) := by rw [coletar_topo]; exact hcap
  unfold Novato.iterar at hn
  split at hn
  · exact absurd hn (by simp)
  · simp only at hn
    rcases hc with h | h | h | h <;> subst h
    · rw [if_pos (by decide), semPista_esquerda] at hn
      simp only [iterar]
      rw [mover_para_esquerda _ hvc hcapc (Or.inl rfl), coletar_atual]
      cases hesq : m.atual.esquerda with
      | none =>
        rw [hesq] at hn
        simp only [Option.map_none'] at hn
        injection hn with hn _
        exact ⟨_, rfl, by rw [coletar_atual]; exact hn⟩
      | some f =>
        rw [hesq] at hn
        simp only [Option.map_some'] at hn
        injection hn with hn _
        exact ⟨_, rfl, hn⟩
    · rw [if_pos (by decide), semPista_esquerda] at hn
      simp only [iterar]
      rw [mover_para_esquerda _ hvc hcapc (Or.inr rfl), coletar_atual]
      cases hesq : m.atual.esquerda with
      | none =>
        rw [hesq] at hn
        simp only [Option.map_none'] at hn
        injection hn with hn _
        exact ⟨_, rfl, by rw [coletar_atual]; exact hn⟩
      | some f =>
        rw [hesq] at hn
        simp only [Option.map_some'] at hn
        injection hn with hn _
        exact ⟨_, rfl, hn⟩
    · rw [if_neg (by decide), if_pos (by decide), semPista_direita] at hn
      simp only [iterar]
      rw [mover_para_direita _ hvc hcapc (Or.inl rfl), coletar_atual]
      cases hdir : m.atual.direita with
      | none =>
        rw [hdir] at hn
        simp only [Option.map_none'] at hn
        injection hn with hn _
        exact ⟨_, rfl, by rw [coletar_atual]; exact hn⟩
      | some f =>
        rw [hdir] at hn
        simp only [Option.map_some'] at hn
        injection hn with hn _
        exact ⟨_, rfl, hn⟩
    · rw [if_neg (by decide), if_pos (by decide), semPista_direita] at hn
      simp only [iterar]
      rw [mover_para_direita _ hvc hcapc (Or.inr rfl), coletar_atual]
      cases hdir : m.atual.direita with
      | none =>
        rw [hdir] at hn
        simp only [Option.map_none'] at hn
        injection hn with hn _
        exact ⟨_, rfl, by rw [coletar_atual]; exact hn⟩
      | some f =>
        rw [hdir] at hn
        simp only [Option.map_some'] at hn
        injection hn with hn _
        exact ⟨_, rfl, hn⟩

theorem simulacao_geral (cs : List Nat) (hcs : ∀ c ∈ cs, c = 101 ∨ c = 69 ∨ c = 100 ∨ c = 68)
    (m0 : Estado) (hv : m0.Valido) (escolha0 : Nat) {n : Novato.Sala} {c0 : Nat}
    (hn : Novato.laco (semPista m0.atual) escolha0 (cs.map some) = .segue n c0)
    (hcap : ∀ k, k < cs.length → ∀ m,
      laco m0 ((cs.take k).map (fun c => some (cstr [c]))) = .segue m →
        m.topo + 1 < (STACK_MAX : Int)) :
    ∃ m, laco m0 (cs.map (fun c => some (cstr [c]))) = .segue m ∧ semPista m.atual = n := by
  induction cs generalizing m0 escolha0 with
  | nil =>
    simp only [List.map_nil, Novato.laco] at hn
    injection hn with hn _
    exact ⟨m0, rfl, hn⟩
  | cons c resto ih =>
    simp only [List.map_cons, Novato.laco] at hn
    cases hit : Novato.iterar (semPista m0.atual) escolha0 (some c) with
    | fim => simp [hit] at hn
    | segue n1 c1 =>
      rw [hit] at hn
      simp only at hn
      have hcap0 : m0.topo + 1 < (STACK_MAX : Int) :=
        hcap 0 (by simp) m0 (by simp [laco])
      obtain ⟨m1, hm1, hs1⟩ :=
        simulacao_passo m0 hv hcap0 (hcs c (List.mem_cons_self _ _)) escolha0 hit
      have hv1 := (valido_iterar hv (some (cstr [c]))).2 m1 hm1
      rw [← hs1] at hn
      obtain ⟨m, hm, hs⟩ := ih (fun x hx => hcs x (List.mem_cons_of_mem _ hx)) m1 hv1 c1 hn
        (fun k hk m hm => hcap (k + 1) (by simp only [List.length_cons]; omega) m
          (by simp only [List.take_succ_cons, List.map_cons, laco, hm1]; exact hm))
      exact ⟨m, by simp only [List.map_cons, laco, hm1]; exact hm, hs⟩

/-- C17: on every map and for every sequence of tokens `e`, `E`, `d`, `D`, if the
simpler `explorarSalas` is still in its loop after the tokens (it has not
stopped at a room without children) and the richer one has fewer than
`STACK_MAX` rooms in its history each time it reads a token, then the richer
one is still in its loop too and both are in the same room of the map. -/
theorem mestre_simula_novato (raiz : Sala) (pilha0 : List Sala) (cs : List Nat)
    (escolha0 : Nat) (n : Novato.Sala) (c0 : Nat) (hl : pilha0.length = STACK_MAX)
    (hcs : ∀ c ∈ cs, c = 101 ∨ c = 69 ∨ c = 100 ∨ c = 68)
    (hn : Novato.explorarSalas (some (semPista raiz)) escolha0 (cs.map some) = .segue n c0)
    (hcap : ∀ k, k < cs.length → ∀ m,
      explorarSalas (some raiz) .nil pilha0 ((cs.take k).map (fun c => some (cstr [c]))) =
          .segue m →
        m.topo + 1 < (STACK_MAX : Int)) :
    ∃ m, explorarSalas (some raiz) .nil pilha0 (cs.map (fun c => some (cstr [c]))) = .segue m ∧
      semPista m.atual = n :=
  simulacao_geral cs hcs (estadoInicial raiz .nil pilha0) (valido_estadoInicial raiz hl)
    escolha0 hn hcap

set_option maxRecDepth 8000 in
theorem capacidade_no_cenario : ∀ k, k < [101, 101].length → ∀ m,
    explorarSalas (some hall) .nil (pilhaDe hall)
        (([101, 101].take k).map (fun c => some (cstr [c]))) = .segue m →
      m.topo + 1 < (STACK_MAX : Int) := by
  intro k hk m hm
  have hk2 : k = 0 ∨ k = 1 := by
    simp only [List.length_cons, List.length_nil] at hk
    omega
  rcases hk2 with h | h <;> subst h
  · have hr : explorarSalas (some hall) .nil (pilhaDe hall)
        (([101, 101].take 0).map (fun c => some (cstr [c]))) =
          .segue (estadoInicial hall .nil (pilhaDe hall)) := rfl
    rw [hr] at hm
    injection hm with hm
    subst hm
    decide
  · have hr : explorarSalas (some hall) .nil (pilhaDe hall)
        (([101, 101].take 1).map (fun c => some (cstr [c]))) =
          .segue ⟨salaEstar, (pilhaDe hall).set 0 hall, 0, .node textoA 1 .nil .nil⟩ := by rfl
    rw [hr] at hm
    injection hm with hm
    subst hm
    decide

set_option maxRecDepth 8000 in
/-- Witness for C17: after `e`, `e` from `Hall` both variants are in `Biblioteca`. -/
theorem mestre_simula_novato_witness :
    ∃ m, explorarSalas (some hall) .nil (pilhaDe hall)
        ([101, 101].map (fun c => some (cstr [c]))) = .segue m ∧
      semPista m.atual = semPista biblioteca :=
  mestre_simula_novato hall (pilhaDe hall) [101, 101] 0 (semPista biblioteca) 101
    (length_pilhaDe hall) (by decide) (by rfl) capacidade_no_cenario

/-! ## Clue tree: texts longer than the buffer -/

theorem buscarPistaNode_longo {raiz : BSTNode} (ho : raiz.Ordenada) {t : CStr}
    (ht : MAX_NAME ≤ t.length) : buscarPistaNode raiz (some t) = .nil := by
  by_contra hne
  have hm := (buscarPistaNode_ne_nil_iff ho t).1 hne
  have := textos_length_lt ho t hm
  omega

/-- C21: for every clue text `t` of `MAX_NAME` bytes or more and every clue tree
built by `inserirPista` calls, `inserirPista(tree, t)` adds one node, which holds
the first `MAX_NAME - 1` bytes of `t` with `contador` 1, and keeps the other
nodes; `buscarPistaNode` with the full text `t` returns `NULL` on the resulting
tree; and every text stored in the tree, before and after, has at most
`MAX_NAME - 1` bytes. -/
theorem inserirPista_texto_longo (textos : List CStr) (t : CStr) (ht : MAX_NAME ≤ t.length) :
    (∃ l1 l2, (inserirTodas .nil textos).emOrdem = l1 ++ l2 ∧
        (inserirPista (inserirTodas .nil textos) (some t)).emOrdem =
          l1 ++ (strncpy t (MAX_NAME - 1), 1) :: l2) ∧
      (strncpy t (MAX_NAME - 1)).length = MAX_NAME - 1 ∧
      buscarPistaNode (inserirPista (inserirTodas .nil textos) (some t)) (some t) = .nil ∧
      (∀ k ∈ (inserirTodas .nil textos).textos, k.length ≤ MAX_NAME - 1) ∧
      (∀ k ∈ (inserirPista (inserirTodas .nil textos) (some t)).textos,
        k.length ≤ MAX_NAME - 1) := by
  have ho := ordenada_inserirTodas ordenada_nil textos
  have ho2 := ordenada_inserirPista ho (some t)
  have hne : t ≠ [] := by
    intro h
    rw [h] at ht
    simp [MAX_NAME] at ht
  refine ⟨inserirPista_ausente hne (buscarPistaNode_longo ho ht), ?_,
    buscarPistaNode_longo ho2 ht, fun k hk => ?_, fun k hk => ?_⟩
  · simp only [strncpy, List.length_take]
    omega
  · have := textos_length_lt ho k hk
    simp only [MAX_NAME] at this ⊢
    omega
  · have := textos_length_lt ho2 k hk
    simp only [MAX_NAME] at this ⊢
    omega

/-- Witness for C21: the 64-byte text inserted into the tree that holds `A` is
stored as its first 63 bytes and is not found afterwards. -/
theorem inserirPista_texto_longo_witness :
    MAX_NAME ≤ textoLongo.length ∧
      (∃ l1 l2, (inserirTodas .nil [textoA]).emOrdem = l1 ++ l2 ∧
        (inserirPista (inserirTodas .nil [textoA]) (some textoLongo)).emOrdem =
          l1 ++ (strncpy textoLongo (MAX_NAME - 1), 1) :: l2) ∧
      buscarPistaNode (inserirPista (inserirTodas .nil [textoA]) (some textoLongo))
        (some textoLongo) = .nil ∧
      strncpy textoLongo (MAX_NAME - 1) = textoCortado :=
  ⟨by decide, (inserirPista_texto_longo [textoA] textoLongo (by decide)).1,
    (inserirPista_texto_longo [textoA] textoLongo (by decide)).2.2.1, by decide⟩

end DetectiveQuest
